import Mathlib

/-!
Verification of the micro-sam core: the volume propagation engine
(`_segment_volume` and its inner `segment_range` in
`micro_sam/sam_annotator/annotator_3d.py`), the overlap metric
(`compute_iou` in `micro_sam/util.py`), and the persisted embedding
computation (`_precompute_2d` and `_precompute_3d` in `micro_sam/util.py`).

The embedding is shallow: masks are flattened integer pixel lists,
the segmentation oracle (`segment_from_mask`) is an abstract function
parameter, the in-place numpy volume is a function from slice index to
mask, side effects (oracle calls, writes, progress increments, chunk and
attribute writes) are recorded in an explicit event trace, and the
`while True` loop of `segment_range` is run on enough fuel to cover the
distance between its start and stop slices.  Rationals stand in for
Python floats (the quantities involved are exact small rationals).
-/

namespace MicroSam

/-- A binary mask: the flattened pixel values of one slice (numpy array). -/
abbrev Mask := List Int

/-- The segmentation oracle `segment_from_mask(predictor, mask, image_embeddings, i,
use_mask, use_box)`: from a prompt mask, a slice index and the projection flags it
returns a new mask.  The predictor and embeddings are baked into the function. -/
abbrev Oracle := Mask → Int → Bool → Bool → Mask

/-- `np.logical_or(a == 1, b == 1)` on two flattened masks
(the combined prompt of the union steps). -/
def maskOr (a b : Mask) : Mask :=
  List.zipWith (fun x y => if x = 1 ∨ y = 1 then 1 else 0) a b

/-- `compute_iou` from `micro_sam/util.py`: intersection of the `== 1` foregrounds
over their union plus `eps = 1e-7`, as an exact rational. -/
def computeIou (mask1 mask2 : Mask) : ℚ :=
  let overlap := (mask1.zip mask2).countP (fun p => decide (p.1 = 1 ∧ p.2 = 1))
  let union := (mask1.zip mask2).countP (fun p => decide (p.1 = 1 ∨ p.2 = 1))
  (overlap : ℚ) / ((union : ℚ) + 1 / 10000000)

/-- Errors of the propagation engine: the `assert projection in (...)` at the top of
`_segment_volume`, and the failure of `segmented_slices.min()` on an empty set. -/
inductive SegErr where
  | invalidProjection
  | emptyAnnotationSet
deriving DecidableEq, Repr

/-- Observable events of one `_segment_volume` run: `wcall z p` is an oracle call
from inside `segment_range` with prompt `p` for slice `z`; `ucall z p` is an oracle
call with a combined (logical-or) prompt; `write z m` is the in-place store
`seg[z] = m`; `iouStop z p` is the early break of `segment_range` when the IOU
between the prompt `p` and the new mask falls below the threshold; `prog` is one
`progress_bar.update(1)` call. -/
inductive SegEv where
  | wcall (z : Int) (p : Mask)
  | ucall (z : Int) (p : Mask)
  | write (z : Int) (m : Mask)
  | iouStop (z : Int) (p : Mask)
  | prog
deriving DecidableEq, Repr

/-- Engine state: the output volume `seg` (slice index to mask, mutated in place
by the source) together with the event trace so far. -/
structure EngSt where
  seg : Int → Mask
  tr : List SegEv

/-- Pointwise update of the volume, modelling `seg[z] = m`. -/
def upd (f : Int → Mask) (z : Int) (m : Mask) : Int → Mask :=
  fun w => if w = z then m else f w

/-- The body of `segment_range`: starting at slice `z`, repeatedly segment from the
previously committed neighbour `seg[z - increment]`, optionally break when the IOU
against that neighbour drops below the threshold, store the result, advance by
`increment` and stop once `stopping_criterion(z, z_stop)` holds.  `fuel` bounds the
number of iterations; every call site supplies more fuel than the walk can use. -/
def segRangeLoop (orc : Oracle) (useMask useBox : Bool) (threshold : Option ℚ)
    (zStop increment : Int) (stopCrit : Int → Int → Bool) :
    Nat → Int → EngSt → EngSt
  | 0, _, st => st
  | fuel + 1, z, st =>
    let segPrev := st.seg (z - increment)
    let segZ := orc segPrev z useMask useBox
    let stc : EngSt := ⟨st.seg, st.tr ++ [SegEv.wcall z segPrev]⟩
    let stopNow : Bool :=
      match threshold with
      | some t => decide (computeIou segPrev segZ < t)
      | none => false
    if stopNow then
      ⟨stc.seg, stc.tr ++ [SegEv.iouStop z segPrev]⟩
    else
      let stw : EngSt := ⟨upd stc.seg z segZ, stc.tr ++ [SegEv.write z segZ]⟩
      if stopCrit (z + increment) zStop then
        stw
      else
        segRangeLoop orc useMask useBox threshold zStop increment stopCrit fuel
          (z + increment) ⟨stw.seg, stw.tr ++ [SegEv.prog]⟩

/-- `segment_range(z_start, z_stop, increment, stopping_criterion, threshold)`:
the loop starts at `z_start + increment`. -/
def segRange (orc : Oracle) (useMask useBox : Bool) (zStart zStop increment : Int)
    (stopCrit : Int → Int → Bool) (threshold : Option ℚ) (st : EngSt) : EngSt :=
  segRangeLoop orc useMask useBox threshold zStop increment stopCrit
    ((zStop - zStart).natAbs + 1) (zStart + increment) st

/-- One iteration of the in-between loop of `_segment_volume` for a consecutive
pair `(z_start, z_stop)` of annotated slices: adjacent pair, the two stop-flag
special cases, the single-slice union case `slice_diff == 2`, and the general
two-sided walk toward `z_mid = (z_start + z_stop) // 2` with the union step for
even gaps. -/
def interpPair (orc : Oracle) (useMask useBox : Bool) (z0 z1 : Int)
    (stopLower stopUpper : Bool) (pr : Int × Int) (st : EngSt) : EngSt :=
  let zStart := pr.1
  let zStop := pr.2
  let sliceDiff := zStop - zStart
  let zMid := (zStart + zStop) / 2
  if sliceDiff = 1 then
    st
  else if zStart = z0 ∧ stopLower = true then
    segRange orc useMask useBox zStop zStart (-1) (fun a b => decide (a ≤ b)) none st
  else if zStop = z1 ∧ stopUpper = true then
    segRange orc useMask useBox zStart zStop 1 (fun a b => decide (b ≤ a)) none st
  else if sliceDiff = 2 then
    let z := zStart + 1
    let segPrompt := maskOr (st.seg zStart) (st.seg zStop)
    let m := orc segPrompt z useMask useBox
    ⟨upd st.seg z m, st.tr ++ [SegEv.ucall z segPrompt, SegEv.write z m, SegEv.prog]⟩
  else
    let st1 := segRange orc useMask useBox zStart zMid 1
      (if sliceDiff % 2 = 0 then (fun a b => decide (b ≤ a)) else (fun a b => decide (b < a)))
      none st
    let st2 := segRange orc useMask useBox zStop zMid (-1) (fun a b => decide (a ≤ b)) none st1
    if sliceDiff % 2 = 0 then
      let segPrompt := maskOr (st2.seg (zMid - 1)) (st2.seg (zMid + 1))
      let m := orc segPrompt zMid useMask useBox
      ⟨upd st2.seg zMid m,
        st2.tr ++ [SegEv.ucall zMid segPrompt, SegEv.write zMid m, SegEv.prog]⟩
    else
      st2

/-- Phase 1 of `_segment_volume`: segment below the min annotated slice
(`if z0 > 0 and not stop_lower`), with the IOU threshold active. -/
def lowerPhase (orc : Oracle) (useMask useBox : Bool) (z0 : Int) (stopLower : Bool)
    (iouThreshold : ℚ) (st : EngSt) : EngSt :=
  if 0 < z0 ∧ stopLower = false then
    segRange orc useMask useBox z0 0 (-1) (fun a b => decide (a < b)) (some iouThreshold) st
  else
    st

/-- Phase 2 of `_segment_volume`: segment above the max annotated slice
(`if z1 < seg.shape[0] - 1 and not stop_upper`), with the IOU threshold active. -/
def upperPhase (orc : Oracle) (useMask useBox : Bool) (zDim : Nat) (z1 : Int)
    (stopUpper : Bool) (iouThreshold : ℚ) (st : EngSt) : EngSt :=
  if z1 < (zDim : Int) - 1 ∧ stopUpper = false then
    segRange orc useMask useBox z1 ((zDim : Int) - 1) 1 (fun a b => decide (b < a))
      (some iouThreshold) st
  else
    st

/-- Phase 3 of `_segment_volume`: the loop over consecutive annotated pairs
`zip(segmented_slices[:-1], segmented_slices[1:])`. -/
def interpPhase (orc : Oracle) (useMask useBox : Bool) (z0 z1 : Int)
    (stopLower stopUpper : Bool) (pairs : List (Int × Int)) (st : EngSt) : EngSt :=
  pairs.foldl (fun s pr => interpPair orc useMask useBox z0 z1 stopLower stopUpper pr s) st

/-- `segmented_slices.min()` (numpy min: fails on an empty array). -/
def npMin : List Int → Option Int
  | [] => none
  | x :: xs => some (xs.foldl min x)

/-- `segmented_slices.max()` (numpy max: fails on an empty array). -/
def npMax : List Int → Option Int
  | [] => none
  | x :: xs => some (xs.foldl max x)

/-- The `use_mask, use_box` flags chosen from the projection mode at the top of
`_segment_volume`. -/
def projFlags (projection : String) : Bool × Bool :=
  if projection = "mask" then (true, true) else (false, true)

/-- `_segment_volume(seg, predictor, image_embeddings, segmented_slices, stop_lower,
stop_upper, iou_threshold, projection, progress_bar)`: the projection assertion, the
min/max of the annotated slices, the two outward phases and the interpolation loop
(run only when `z0 != z1`). -/
def segmentVolume (orc : Oracle) (zDim : Nat) (slices : List Int)
    (stopLower stopUpper : Bool) (iouThreshold : ℚ) (projection : String)
    (seg0 : Int → Mask) : Except SegErr EngSt :=
  if projection = "mask" ∨ projection = "bounding_box" then
    let useMask := (projFlags projection).1
    let useBox := (projFlags projection).2
    match npMin slices, npMax slices with
    | some z0, some z1 =>
      let stA := lowerPhase orc useMask useBox z0 stopLower iouThreshold ⟨seg0, []⟩
      let stB := upperPhase orc useMask useBox zDim z1 stopUpper iouThreshold stA
      let stC :=
        if z0 ≠ z1 then
          interpPhase orc useMask useBox z0 z1 stopLower stopUpper
            (slices.zip slices.tail) stB
        else
          stB
      Except.ok stC
    | _, _ => Except.error SegErr.emptyAnnotationSet
  else
    Except.error SegErr.invalidProjection

/-- Count of `write` events at slice `z` in a trace. -/
def writeCount (tr : List SegEv) (z : Int) : Nat :=
  tr.countP fun e => match e with
    | SegEv.write w _ => w == z
    | _ => false

/-- Count of walk oracle calls (`wcall`) at slice `z` in a trace. -/
def wcallCount (tr : List SegEv) (z : Int) : Nat :=
  tr.countP fun e => match e with
    | SegEv.wcall w _ => w == z
    | _ => false

/-- Count of union-prompt oracle calls (`ucall`) in a trace. -/
def ucallCount (tr : List SegEv) : Nat :=
  tr.countP fun e => match e with
    | SegEv.ucall _ _ => true
    | _ => false

/-- Count of IOU early stops in a trace. -/
def iouStopCount (tr : List SegEv) : Nat :=
  tr.countP fun e => match e with
    | SegEv.iouStop _ _ => true
    | _ => false

/-- Count of progress-bar increments in a trace. -/
def progCount (tr : List SegEv) : Nat :=
  tr.countP fun e => match e with
    | SegEv.prog => true
    | _ => false

/-- Total count of `write` events in a trace (slices segmented). -/
def writeTotal (tr : List SegEv) : Nat :=
  tr.countP fun e => match e with
    | SegEv.write _ _ => true
    | _ => false

/-- Strictly ascending, as a decidable predicate on the annotated slice list. -/
def strictAsc : List Int → Bool
  | [] => true
  | [_] => true
  | a :: b :: r => decide (a < b) && strictAsc (b :: r)

end MicroSam

namespace MicroSam

/-! Model of the persisted embedding computation in `micro_sam/util.py`. -/

/-- One feature embedding (a flattened float chunk, modelled over `Int`). -/
abbrev Emb := List Int

/-- The test `np.count_nonzero(emb) != 0` on a stored chunk. -/
def isNonzeroEmb (e : Emb) : Bool :=
  e.any fun v => v != 0

/-- Observable events of a `_precompute_2d` / `_precompute_3d` run: `encode z` is one
encoder pass (`predictor.set_image` + `get_image_embedding`) for slice `z`;
`createDataset` is the `f.create_dataset("features", ...)` call; `writeChunk z` is the
per-slice store `features[z] = embedding`; `writeAttrs i o` is the final write of the
`input_size` / `original_size` attributes. -/
inductive EmbEv (M : Type) where
  | encode (z : Nat)
  | createDataset
  | writeChunk (z : Nat)
  | writeAttrs (i o : Option M)
deriving DecidableEq

/-- A persisted 3D zarr container: the `input_size` / `original_size` attribute pair
(present after a completed run, possibly holding `None` values) and the chunked
`features` dataset (one chunk per slice), if created. -/
structure EmbStore (M : Type) where
  meta : Option (Option M × Option M)
  features : Option (List Emb)
deriving DecidableEq

/-- A persisted 2D zarr container. -/
structure EmbStore2 (M : Type) where
  meta : Option (M × M)
  features : Option Emb
deriving DecidableEq

/-- Intermediate state of the slice loop in `_precompute_3d`: the `features` dataset
(if created yet), the running `input_size` / `original_size` captures and the event
trace. -/
structure P3State (M : Type) where
  features : Option (List Emb)
  isz : Option M
  osz : Option M
  tr : List (EmbEv M)

/-- Result of a `_precompute_3d` call: updated container, the returned `features`,
the returned metadata and the event trace. -/
structure P3Result (M : Type) where
  store : EmbStore M
  featuresOut : Option (List Emb)
  iszOut : Option M
  oszOut : Option M
  tr : List (EmbEv M)

/-- Result of a `_precompute_2d` call. -/
structure P2Result (M : Type) where
  store : EmbStore2 M
  featuresOut : Option Emb
  iszOut : Option M
  oszOut : Option M
  tr : List (EmbEv M)

/-- The slice loop of `_precompute_3d`: for each slice `z`, skip if the stored chunk
is non-zero, otherwise run the encoder, capture `(original_size, input_size)` from
the predictor (every time, unguarded), create the chunked dataset on the first
computed slice, and store the chunk.  `enc z` is the embedding the encoder produces
for slice `z`; `mi z` / `mo z` are the predictor's `input_size` / `original_size`
after processing slice `z`. -/
def precompute3dLoop {M : Type} (enc : Nat → Emb) (mi mo : Nat → M) (zDim : Nat) :
    List Nat → P3State M → P3State M
  | [], st => st
  | z :: rest, st =>
    let skip : Bool :=
      match st.features with
      | some fs => isNonzeroEmb (fs.getD z [])
      | none => false
    if skip then
      precompute3dLoop enc mi mo zDim rest st
    else
      let emb := enc z
      let tr1 := st.tr ++ [EmbEv.encode z]
      let fsTr : List Emb × List (EmbEv M) :=
        match st.features with
        | some fs => (fs, tr1)
        | none => (List.replicate zDim (List.replicate emb.length 0), tr1 ++ [EmbEv.createDataset])
      precompute3dLoop enc mi mo zDim rest
        ⟨some (fsTr.1.set z emb), some (mi z), some (mo z),
          fsTr.2 ++ [EmbEv.writeChunk z]⟩

/-- `_precompute_3d(input_, predictor, save_path, lazy_loading)`: if `input_size` is
already among the attributes, load; otherwise run the slice loop over `0 .. Z-1` and
write the attributes once at the end.  (`lazy_loading` only controls whether the
returned features are materialized; the values are identical either way.) -/
def precompute3d {M : Type} (enc : Nat → Emb) (mi mo : Nat → M) (zDim : Nat)
    (store : EmbStore M) (lazyLoading : Bool) : P3Result M :=
  match store.meta with
  | some (i, o) => ⟨store, store.features, i, o, []⟩
  | none =>
    let st := precompute3dLoop enc mi mo zDim (List.range zDim)
      ⟨store.features, none, none, []⟩
    ⟨⟨some (st.isz, st.osz), st.features⟩, st.features, st.isz, st.osz,
      st.tr ++ [EmbEv.writeAttrs st.isz st.osz]⟩

/-- `_precompute_2d(input_, predictor, save_path)`: if `input_size` is already among
the attributes, load features and metadata; otherwise run the encoder once on the
whole image, persist features and attributes.  `encImage` is the embedding of the
whole 2D image, `miv` / `mov` the predictor's sizes after `set_image`. -/
def precompute2d {M : Type} (encImage : Emb) (miv mov : M) (store : EmbStore2 M) :
    P2Result M :=
  match store.meta with
  | some (i, o) => ⟨store, store.features, some i, some o, []⟩
  | none =>
    ⟨⟨some (miv, mov), some encImage⟩, some encImage, some miv, some mov,
      [EmbEv.encode 0, EmbEv.createDataset, EmbEv.writeAttrs (some miv) (some mov)]⟩

/-- The slice indices of the `encode` events of a trace (the slices on which the
encoder was actually invoked, in order). -/
def encodeIndices {M : Type} (tr : List (EmbEv M)) : List Nat :=
  tr.filterMap fun e => match e with
    | EmbEv.encode z => some z
    | _ => none

/-- Count of attribute writes in a trace. -/
def writeAttrsCount {M : Type} (tr : List (EmbEv M)) : Nat :=
  tr.countP fun e => match e with
    | EmbEv.writeAttrs _ _ => true
    | _ => false

/-- The persisted container state after a fresh 3D run is interrupted once slices
`0 .. k` have been stored: those chunks hold their computed embeddings, the
remaining chunks still hold the zero fill of the dataset creation, and the
attributes were never written. -/
def interruptedStore3d (enc : Nat → Emb) (zDim k : Nat) {M : Type} : EmbStore M :=
  ⟨none, some ((List.range zDim).map fun z =>
    if z ≤ k then enc z else List.replicate (enc 0).length 0)⟩

end MicroSam

namespace MicroSam

/-! Helper lemmas about `compute_iou`. -/

theorem zip_self_countP_and (A : Mask) :
    (A.zip A).countP (fun p => decide (p.1 = 1 ∧ p.2 = 1)) =
      A.countP (fun v => decide (v = 1)) := by
  induction A with
  | nil => rfl
  | cons a t ih =>
    rw [List.zip_cons_cons, List.countP_cons, List.countP_cons, ih]
    by_cases h : a = 1 <;> simp [h]

theorem zip_self_countP_or (A : Mask) :
    (A.zip A).countP (fun p => decide (p.1 = 1 ∨ p.2 = 1)) =
      A.countP (fun v => decide (v = 1)) := by
  induction A with
  | nil => rfl
  | cons a t ih =>
    rw [List.zip_cons_cons, List.countP_cons, List.countP_cons, ih]
    by_cases h : a = 1 <;> simp [h]

theorem computeIou_self (A : Mask) :
    computeIou A A =
      ((A.countP fun v => decide (v = 1) : ℚ)) /
        ((A.countP fun v => decide (v = 1) : ℚ) + 1 / 10000000) := by
  unfold computeIou
  rw [zip_self_countP_and, zip_self_countP_or]

theorem computeIou_nonneg (A B : Mask) : 0 ≤ computeIou A B := by
  unfold computeIou
  positivity

theorem computeIou_lt_one (A B : Mask) : computeIou A B < 1 := by
  unfold computeIou
  have hmono : ((A.zip B).countP fun p => decide (p.1 = 1 ∧ p.2 = 1)) ≤
      ((A.zip B).countP fun p => decide (p.1 = 1 ∨ p.2 = 1)) := by
    apply List.countP_mono_left
    intro a _ h
    simp only [decide_eq_true_eq] at h ⊢
    exact Or.inl h.1
  rw [div_lt_one (by positivity)]
  have : (((A.zip B).countP fun p => decide (p.1 = 1 ∧ p.2 = 1) : ℚ)) ≤
      (((A.zip B).countP fun p => decide (p.1 = 1 ∨ p.2 = 1) : ℚ)) := by
    exact_mod_cast hmono
  nlinarith

end MicroSam

namespace MicroSam

/-- C7 counterexample: the claim says any two identical binary masks give IOU
`1 / (1 + eps)`, but for the identical masks `[1, 1]` (two foreground pixels)
`compute_iou` returns `2 / (2 + eps)`, which differs from `1 / (1 + eps)`. -/
theorem c7_iou_identical_counterexample :
    computeIou [1, 1] [1, 1] ≠ 1 / (1 + 1 / 10000000) := by
  rw [computeIou_self]
  have h2 : (List.countP (fun v => decide (v = 1)) ([1, 1] : Mask)) = 2 := by decide
  rw [h2]
  norm_num

/-- C7 (amended): `compute_iou` equals intersection over union plus `eps = 1e-7`;
for two identical masks with `n` foreground pixels it equals `n / (n + eps)`
(which for `n ≥ 1` lies in `[1 / (1 + eps), 1)`, hence is approximately 1, and
equals `1 / (1 + eps)` only when `n = 1`); for masks with empty intersection —
including two empty masks — it equals exactly `0`; and it is always a defined
rational value in `[0, 1)`, never a division error. -/
theorem c7_iou_formula_and_values (A B : Mask) :
    computeIou A B =
      (((A.zip B).countP fun p => decide (p.1 = 1 ∧ p.2 = 1) : ℚ)) /
        (((A.zip B).countP fun p => decide (p.1 = 1 ∨ p.2 = 1) : ℚ) + 1 / 10000000) ∧
    computeIou A A =
      ((A.countP fun v => decide (v = 1) : ℚ)) /
        ((A.countP fun v => decide (v = 1) : ℚ) + 1 / 10000000) ∧
    (1 ≤ A.countP (fun v => decide (v = 1)) →
      1 / (1 + 1 / 10000000) ≤ computeIou A A) ∧
    (((A.zip B).countP fun p => decide (p.1 = 1 ∧ p.2 = 1)) = 0 → computeIou A B = 0) ∧
    0 ≤ computeIou A B ∧ computeIou A B < 1 := by
  refine ⟨rfl, computeIou_self A, ?_, ?_, computeIou_nonneg A B, computeIou_lt_one A B⟩
  · intro hn
    rw [computeIou_self]
    have hq : (1 : ℚ) ≤ ((A.countP fun v => decide (v = 1) : ℚ)) := by exact_mod_cast hn
    rw [div_le_div_iff (by positivity) (by positivity)]
    nlinarith
  · intro h0
    unfold computeIou
    rw [h0]
    simp

/-- C7 witness: the amended theorem applied to the identical two-pixel mask
`[1, 1]` (value at least `1 / (1 + eps)`) and to the disjoint non-empty masks
`[1, 0]` and `[0, 1]` (value exactly `0`). -/
theorem c7_iou_witness :
    (1 ≤ List.countP (fun v => decide (v = 1)) ([1, 1] : Mask) ∧
      1 / (1 + 1 / 10000000) ≤ computeIou [1, 1] [1, 1]) ∧
    ((([1, 0] : Mask).zip ([0, 1] : Mask)).countP
        (fun p => decide (p.1 = 1 ∧ p.2 = 1)) = 0 ∧
      computeIou [1, 0] [0, 1] = 0) :=
  ⟨⟨by decide, (c7_iou_formula_and_values [1, 1] [1, 1]).2.2.1 (by decide)⟩,
    ⟨by decide, (c7_iou_formula_and_values [1, 0] [0, 1]).2.2.2.1 (by decide)⟩⟩

end MicroSam

namespace MicroSam

/-! Helper lemmas for the persisted embedding computation. -/

theorem set_map_range {α : Type} (f : Nat → α) (v : α) (n z : Nat) :
    ((List.range n).map f).set z v = (List.range n).map (fun w => if w = z then v else f w) := by
  apply List.ext_getElem?
  intro i
  rw [List.getElem?_set]
  by_cases hi : i < n
  · by_cases hz : z = i
    · subst hz
      simp [List.getElem?_map, List.getElem?_range, hi]
    · have hiz : ¬ (i = z) := fun h => hz h.symm
      simp [List.getElem?_map, List.getElem?_range, hi, hz, hiz]
  · have hr : (List.range n)[i]? = none := by
      simp [List.getElem?_range]
      omega
    by_cases hz : z = i
    · subst hz
      simp [List.getElem?_map, hr]
      omega
    · simp [List.getElem?_map, hr, hz]

theorem getD_map_range {α : Type} (f : Nat → α) (d : α) (n z : Nat) (h : z < n) :
    ((List.range n).map f).getD z d = f z := by
  simp [List.getD, List.getElem?_map, List.getElem?_range, h]

theorem map_range_const {α : Type} (n : Nat) (zc : α) :
    (List.range n).map (fun _ => zc) = List.replicate n zc := by
  apply List.ext_getElem?
  intro i
  by_cases h : i < n <;>
    simp [List.getElem?_map, List.getElem?_range, List.getElem?_replicate, h]

theorem isNonzeroEmb_replicate_zero (L : Nat) :
    isNonzeroEmb (List.replicate L 0) = false := by
  rw [Bool.eq_false_iff]
  simp [isNonzeroEmb, List.any_eq_true, List.mem_replicate]

theorem foldl_meta_range' {M : Type} (mi : Nat → M) :
    ∀ (n s : Nat) (i : Option M), 1 ≤ n →
      (List.range' s n).foldl (fun _ z => some (mi z)) i = some (mi (s + n - 1)) := by
  intro n
  induction n with
  | zero => omega
  | succ m ih =>
    intro s i _
    rw [List.range'_succ, List.foldl_cons]
    rcases Nat.eq_zero_or_pos m with hm | hm
    · subst hm
      simp
    · rw [ih (s+1) (some (mi s)) hm]
      congr 1
      congr 1
      omega

theorem filter_range'_gt (k n : Nat) (hk : k + 1 ≤ n) :
    (List.range' 0 n).filter (fun z => !decide (z ≤ k)) =
      List.range' (k + 1) (n - (k + 1)) := by
  have hsplit : List.range' 0 (k+1) ++ List.range' (k+1) (n - (k+1)) = List.range' 0 n := by
    have := List.range'_append 0 (k+1) (n - (k+1)) 1
    simp only [one_mul, Nat.zero_add] at this
    rw [this]
    congr 1
    omega
  rw [← hsplit, List.filter_append]
  have h1 : (List.range' 0 (k+1)).filter (fun z => !decide (z ≤ k)) = [] := by
    rw [List.filter_eq_nil_iff]
    intro a ha
    have hb := List.mem_range'_1.mp ha
    simp
    omega
  have h2 : (List.range' (k+1) (n - (k+1))).filter (fun z => !decide (z ≤ k)) =
      List.range' (k+1) (n - (k+1)) := by
    rw [List.filter_eq_self]
    intro a ha
    have hb := List.mem_range'_1.mp ha
    simp
    omega
  rw [h1, h2, List.nil_append]

theorem encodeIndices_append {M : Type} (t1 t2 : List (EmbEv M)) :
    encodeIndices (t1 ++ t2) = encodeIndices t1 ++ encodeIndices t2 := by
  simp [encodeIndices, List.filterMap_append]

theorem writeAttrsCount_append {M : Type} (t1 t2 : List (EmbEv M)) :
    writeAttrsCount (t1 ++ t2) = writeAttrsCount t1 + writeAttrsCount t2 := by
  simp [writeAttrsCount, List.countP_append]

end MicroSam

namespace MicroSam

/-- Characterization of the `_precompute_3d` slice loop over `range' s n`, for a
features dataset whose chunk at `w` holds `enc w` when `P w` is true (already
computed) or `w < s` (computed earlier in this run), and the zero fill `zc`
otherwise: the loop skips exactly the `P`-chunks, fills all the others with the
encoder output, captures the metadata of each computed slice (so the last one
wins), and never writes attributes. -/
theorem precompute3dLoop_shape {M : Type} (enc : Nat → Emb) (mi mo : Nat → M)
    (zDim : Nat) (P : Nat → Bool) (zc : Emb)
    (hzc : isNonzeroEmb zc = false)
    (hP : ∀ w, w < zDim → P w = true → isNonzeroEmb (enc w) = true) :
    ∀ (n s : Nat) (st : P3State M), s + n ≤ zDim →
      st.features = some ((List.range zDim).map fun w =>
        if P w = true ∨ w < s then enc w else zc) →
      ∃ trNew,
        precompute3dLoop enc mi mo zDim (List.range' s n) st =
          ⟨some ((List.range zDim).map fun w =>
             if P w = true ∨ w < s + n then enc w else zc),
           ((List.range' s n).filter fun z => !(P z)).foldl
             (fun _ z => some (mi z)) st.isz,
           ((List.range' s n).filter fun z => !(P z)).foldl
             (fun _ z => some (mo z)) st.osz,
           st.tr ++ trNew⟩ ∧
        encodeIndices trNew = (List.range' s n).filter (fun z => !(P z)) ∧
        writeAttrsCount trNew = 0 := by
  intro n
  induction n with
  | zero =>
    intro s st _ hF
    refine ⟨[], ?_, rfl, rfl⟩
    obtain ⟨f0, i0, o0, t0⟩ := st
    simp only at hF
    subst hF
    simp [precompute3dLoop, List.range']
  | succ m ih =>
    intro s st hle hF
    obtain ⟨f0, i0, o0, t0⟩ := st
    simp only at hF
    subst hF
    have hs : s < zDim := by omega
    rw [List.range'_succ]
    have hget : ((List.range zDim).map fun w =>
        if P w = true ∨ w < s then enc w else zc).getD s [] =
        (if P s = true ∨ s < s then enc s else zc) := getD_map_range _ [] zDim s hs
    by_cases hPs : P s = true
    · -- chunk already computed: skip
      have hskip : isNonzeroEmb (((List.range zDim).map fun w =>
          if P w = true ∨ w < s then enc w else zc).getD s []) = true := by
        rw [hget]
        simp only [hPs, true_or, if_pos]
        exact hP s hs hPs
      have hstep : precompute3dLoop enc mi mo zDim (s :: List.range' (s+1) m)
          ⟨some ((List.range zDim).map fun w =>
            if P w = true ∨ w < s then enc w else zc), i0, o0, t0⟩ =
          precompute3dLoop enc mi mo zDim (List.range' (s+1) m)
          ⟨some ((List.range zDim).map fun w =>
            if P w = true ∨ w < s then enc w else zc), i0, o0, t0⟩ := by
        simp only [precompute3dLoop, hskip, if_pos]
      rw [hstep]
      have hmapeq : ((List.range zDim).map fun w =>
          if P w = true ∨ w < s then enc w else zc) =
          ((List.range zDim).map fun w => if P w = true ∨ w < s + 1 then enc w else zc) := by
        apply List.map_congr_left
        intro w _
        by_cases hpw : P w = true
        · simp [hpw]
        · by_cases hws : w = s
          · exact absurd (hws ▸ hPs) hpw
          · by_cases hlt : w < s
            · have h2 : w < s + 1 := by omega
              simp [hlt, h2]
            · have h2 : ¬ w < s + 1 := by omega
              simp [hpw, hlt, h2]
      rw [hmapeq]
      obtain ⟨trNew, heq, henc, hwa⟩ := ih (s+1)
        ⟨some ((List.range zDim).map fun w => if P w = true ∨ w < s + 1 then enc w else zc),
          i0, o0, t0⟩ (by omega) rfl
      refine ⟨trNew, ?_, ?_, hwa⟩
      · rw [heq]
        have hfil : (s :: List.range' (s+1) m).filter (fun z => !(P z)) =
            (List.range' (s+1) m).filter (fun z => !(P z)) := by
          simp [List.filter_cons, hPs]
        rw [hfil]
        have : s + (m + 1) = s + 1 + m := by omega
        rw [this]
      · rw [henc]
        have hfil : (s :: List.range' (s+1) m).filter (fun z => !(P z)) =
            (List.range' (s+1) m).filter (fun z => !(P z)) := by
          simp [List.filter_cons, hPs]
        rw [hfil]
    · -- chunk is the zero fill: compute
      have hPsf : P s = false := by
        rw [Bool.eq_false_iff]
        exact hPs
      have hskip : isNonzeroEmb (((List.range zDim).map fun w =>
          if P w = true ∨ w < s then enc w else zc).getD s []) = false := by
        rw [hget]
        simp only [hPsf, Bool.false_eq_true, false_or, lt_self_iff_false, if_neg,
          not_false_eq_true]
        exact hzc
      have hstep : precompute3dLoop enc mi mo zDim (s :: List.range' (s+1) m)
          ⟨some ((List.range zDim).map fun w =>
            if P w = true ∨ w < s then enc w else zc), i0, o0, t0⟩ =
          precompute3dLoop enc mi mo zDim (List.range' (s+1) m)
          ⟨some ((((List.range zDim).map fun w =>
              if P w = true ∨ w < s then enc w else zc).set s (enc s))),
            some (mi s), some (mo s), (t0 ++ [EmbEv.encode s]) ++ [EmbEv.writeChunk s]⟩ := by
        simp only [precompute3dLoop, hskip, Bool.false_eq_true, if_neg, not_false_eq_true]
      rw [hstep]
      have hmapeq : (((List.range zDim).map fun w =>
          if P w = true ∨ w < s then enc w else zc).set s (enc s)) =
          ((List.range zDim).map fun w => if P w = true ∨ w < s + 1 then enc w else zc) := by
        rw [set_map_range]
        apply List.map_congr_left
        intro w _
        by_cases hws : w = s
        · subst hws
          simp [hPsf]
        · by_cases hpw : P w = true
          · simp [hpw, hws]
          · by_cases hlt : w < s
            · have h2 : w < s + 1 := by omega
              simp [hws, hlt, h2]
            · have h2 : ¬ w < s + 1 := by omega
              simp [hws, hpw, hlt, h2]
      rw [hmapeq]
      obtain ⟨trNew, heq, henc, hwa⟩ := ih (s+1)
        ⟨some ((List.range zDim).map fun w => if P w = true ∨ w < s + 1 then enc w else zc),
          some (mi s), some (mo s), (t0 ++ [EmbEv.encode s]) ++ [EmbEv.writeChunk s]⟩
        (by omega) rfl
      refine ⟨[EmbEv.encode s, EmbEv.writeChunk s] ++ trNew, ?_, ?_, ?_⟩
      · rw [heq]
        have hfil : (s :: List.range' (s+1) m).filter (fun z => !(P z)) =
            s :: (List.range' (s+1) m).filter (fun z => !(P z)) := by
          simp [List.filter_cons, hPsf]
        rw [hfil]
        simp only [List.foldl_cons]
        have hsm : s + (m + 1) = s + 1 + m := by omega
        rw [hsm]
        have htr : (t0 ++ [EmbEv.encode s]) ++ [EmbEv.writeChunk s] ++ trNew =
            t0 ++ ([EmbEv.encode s, EmbEv.writeChunk s] ++ trNew) := by
          simp [List.append_assoc]
        rw [htr]
      · rw [encodeIndices_append, henc]
        have hfil : (s :: List.range' (s+1) m).filter (fun z => !(P z)) =
            s :: (List.range' (s+1) m).filter (fun z => !(P z)) := by
          simp [List.filter_cons, hPsf]
        rw [hfil]
        rfl
      · rw [writeAttrsCount_append, hwa]
        rfl

end MicroSam

namespace MicroSam

/-- A fresh persisted 3D run (empty container) computes every slice in order,
stores `enc z` in every chunk, captures the metadata of the last slice `zDim - 1`,
and writes the attributes exactly once. -/
theorem precompute3d_fresh_spec {M : Type} (enc : Nat → Emb) (mi mo : Nat → M)
    (zDim : Nat) (h1 : 1 ≤ zDim) :
    ∃ trNew,
      precompute3d enc mi mo zDim ⟨none, none⟩ false =
        ⟨⟨some (some (mi (zDim - 1)), some (mo (zDim - 1))),
            some ((List.range zDim).map enc)⟩,
          some ((List.range zDim).map enc),
          some (mi (zDim - 1)), some (mo (zDim - 1)), trNew⟩ ∧
      encodeIndices trNew = List.range zDim ∧
      writeAttrsCount trNew = 1 := by
  obtain ⟨m, rfl⟩ : ∃ m, zDim = m + 1 := ⟨zDim - 1, by omega⟩
  have hrange : List.range (m+1) = 0 :: List.range' 1 m := by
    rw [List.range_eq_range', List.range'_succ]
  have hzc : isNonzeroEmb (List.replicate (enc 0).length 0) = false :=
    isNonzeroEmb_replicate_zero _
  have hform : (List.replicate (m+1) (List.replicate (enc 0).length 0)).set 0 (enc 0) =
      (List.range (m+1)).map (fun w =>
        if (fun _ => false : Nat → Bool) w = true ∨ w < 1 then enc w
        else List.replicate (enc 0).length 0) := by
    rw [← map_range_const (m+1) (List.replicate (enc 0).length 0), set_map_range]
    apply List.map_congr_left
    intro w _
    by_cases hw : w = 0
    · subst hw
      simp
    · have : ¬ w < 1 := by omega
      simp [hw, this]
  obtain ⟨trNew, heq, henc, hwa⟩ := precompute3dLoop_shape enc mi mo (m+1)
    (fun _ => false) (List.replicate (enc 0).length 0) hzc
    (by intro w _ h; simp at h) m 1
    ⟨some ((List.range (m+1)).map (fun w =>
        if (fun _ => false : Nat → Bool) w = true ∨ w < 1 then enc w
        else List.replicate (enc 0).length 0)),
      some (mi 0), some (mo 0),
      ([] ++ [EmbEv.encode 0] ++ [EmbEv.createDataset]) ++ [EmbEv.writeChunk 0]⟩
    (by omega) rfl
  have hfil : (List.range' 1 m).filter (fun z => !((fun _ => false : Nat → Bool) z)) =
      List.range' 1 m := by
    rw [List.filter_eq_self]
    intro a _
    simp
  rw [hfil] at heq henc
  have hmeta : ∀ (mf : Nat → M), (List.range' 1 m).foldl (fun _ z => some (mf z)) (some (mf 0)) =
      some (mf (m + 1 - 1)) := by
    intro mf
    rcases Nat.eq_zero_or_pos m with hm | hm
    · subst hm
      simp
    · rw [foldl_meta_range' mf m 1 (some (mf 0)) hm]
      congr 1
      congr 1
      omega
  have hfeat : (List.range (m+1)).map (fun w =>
      if (fun _ => false : Nat → Bool) w = true ∨ w < 1 + m then enc w
      else List.replicate (enc 0).length 0) = (List.range (m+1)).map enc := by
    apply List.map_congr_left
    intro w hw
    have : w < m + 1 := List.mem_range.mp hw
    have h2 : w < 1 + m := by omega
    simp [h2]
  refine ⟨(([] ++ [EmbEv.encode 0] ++ [EmbEv.createDataset]) ++ [EmbEv.writeChunk 0]) ++
      trNew ++ [EmbEv.writeAttrs (some (mi (m + 1 - 1))) (some (mo (m + 1 - 1)))], ?_, ?_, ?_⟩
  · show (precompute3d enc mi mo (m+1) ⟨none, none⟩ false) = _
    unfold precompute3d
    simp only
    have hloop : precompute3dLoop enc mi mo (m+1) (List.range (m+1))
        ⟨(⟨none, none⟩ : EmbStore M).features, none, none, []⟩ =
        precompute3dLoop enc mi mo (m+1) (List.range' 1 m)
        ⟨some ((List.replicate (m+1) (List.replicate (enc 0).length 0)).set 0 (enc 0)),
          some (mi 0), some (mo 0),
          ([] ++ [EmbEv.encode 0] ++ [EmbEv.createDataset]) ++ [EmbEv.writeChunk 0]⟩ := by
      rw [hrange]
      rfl
    rw [hloop, hform, heq, hmeta mi, hmeta mo, hfeat]
  · rw [encodeIndices_append, encodeIndices_append, henc]
    show ([0] ++ List.range' 1 m) ++ [] = List.range (m+1)
    rw [List.append_nil, hrange]
    rfl
  · rw [writeAttrsCount_append, writeAttrsCount_append, hwa]
    rfl

/-- A resumed persisted 3D run on a container interrupted after slices `0 .. k`
skips exactly those chunks, recomputes slices `k+1 .. zDim-1`, ends with every
chunk holding `enc z`, captures the metadata of the last computed slice
`zDim - 1`, and writes the attributes exactly once. -/
theorem precompute3d_resumed_spec {M : Type} (enc : Nat → Emb) (mi mo : Nat → M)
    (zDim k : Nat) (hk : k + 1 < zDim)
    (hnz : ∀ z, z < zDim → isNonzeroEmb (enc z) = true) :
    ∃ trNew,
      precompute3d enc mi mo zDim (interruptedStore3d enc zDim k) false =
        ⟨⟨some (some (mi (zDim - 1)), some (mo (zDim - 1))),
            some ((List.range zDim).map enc)⟩,
          some ((List.range zDim).map enc),
          some (mi (zDim - 1)), some (mo (zDim - 1)), trNew⟩ ∧
      encodeIndices trNew = List.range' (k + 1) (zDim - (k + 1)) ∧
      writeAttrsCount trNew = 1 := by
  have hzc : isNonzeroEmb (List.replicate (enc 0).length 0) = false :=
    isNonzeroEmb_replicate_zero _
  have hform : (List.range zDim).map (fun z =>
      if z ≤ k then enc z else List.replicate (enc 0).length 0) =
      (List.range zDim).map (fun w =>
        if (fun z => decide (z ≤ k)) w = true ∨ w < 0 then enc w
        else List.replicate (enc 0).length 0) := by
    apply List.map_congr_left
    intro w _
    by_cases hw : w ≤ k <;> simp [hw]
  obtain ⟨trNew, heq, henc, hwa⟩ := precompute3dLoop_shape enc mi mo zDim
    (fun z => decide (z ≤ k)) (List.replicate (enc 0).length 0) hzc
    (by
      intro w hw h
      exact hnz w hw) zDim 0
    ⟨some ((List.range zDim).map (fun w =>
        if (fun z => decide (z ≤ k)) w = true ∨ w < 0 then enc w
        else List.replicate (enc 0).length 0)), none, none, []⟩
    (by omega) rfl
  have hfil := filter_range'_gt k zDim (by omega)
  rw [hfil] at heq henc
  have hmeta : ∀ (mf : Nat → M), (List.range' (k+1) (zDim - (k+1))).foldl
      (fun _ z => some (mf z)) none = some (mf (zDim - 1)) := by
    intro mf
    rw [foldl_meta_range' mf (zDim - (k+1)) (k+1) none (by omega)]
    congr 1
    congr 1
    omega
  have hfeat : (List.range zDim).map (fun w =>
      if (fun z => decide (z ≤ k)) w = true ∨ w < 0 + zDim then enc w
      else List.replicate (enc 0).length 0) = (List.range zDim).map enc := by
    apply List.map_congr_left
    intro w hw
    have hlt : w < zDim := List.mem_range.mp hw
    have h2 : w < 0 + zDim := by omega
    simp [hlt, h2]
  rw [← List.range_eq_range'] at heq
  refine ⟨trNew ++ [EmbEv.writeAttrs (some (mi (zDim - 1))) (some (mo (zDim - 1)))],
    ?_, ?_, ?_⟩
  · show (precompute3d enc mi mo zDim (interruptedStore3d enc zDim k) false) = _
    unfold precompute3d interruptedStore3d
    simp only
    rw [hform, heq, hmeta mi, hmeta mo, hfeat]
    rfl
  · rw [encodeIndices_append, henc]
    simp [encodeIndices]
  · rw [writeAttrsCount_append, hwa]
    rfl

end MicroSam

namespace MicroSam

/-- C4: a persisted 3D embedding run interrupted after slices `0 .. k` and
restarted on the same container and input skips exactly the chunks whose stored
data is not all-zero (slices `0 .. k`, by the no-all-zero-embedding
precondition), re-invokes the encoder exactly on the remaining slices
`k+1 .. zDim-1`, and produces the same final feature array as a single
uninterrupted run. -/
theorem c4_resumed_run_matches_uninterrupted {M : Type} (enc : Nat → Emb)
    (mi mo : Nat → M) (zDim k : Nat) (hk : k + 1 < zDim)
    (hnz : ∀ z, z < zDim → isNonzeroEmb (enc z) = true) :
    (precompute3d enc mi mo zDim (interruptedStore3d enc zDim k) false).store.features =
      (precompute3d enc mi mo zDim ⟨none, none⟩ false).store.features ∧
    (precompute3d enc mi mo zDim (interruptedStore3d enc zDim k) false).featuresOut =
      (precompute3d enc mi mo zDim ⟨none, none⟩ false).featuresOut ∧
    (precompute3d enc mi mo zDim (interruptedStore3d enc zDim k) false).store.features =
      some ((List.range zDim).map enc) ∧
    encodeIndices (precompute3d enc mi mo zDim (interruptedStore3d enc zDim k) false).tr =
      List.range' (k + 1) (zDim - (k + 1)) ∧
    encodeIndices (precompute3d enc mi mo zDim ⟨none, none⟩ false).tr =
      List.range zDim := by
  obtain ⟨trF, heqF, hencF, _⟩ := precompute3d_fresh_spec enc mi mo zDim (by omega)
  obtain ⟨trR, heqR, hencR, _⟩ := precompute3d_resumed_spec enc mi mo zDim k hk hnz
  rw [heqF, heqR]
  exact ⟨rfl, rfl, rfl, hencR, hencF⟩

/-- C4 witness: the theorem at the concrete input `zDim = 3`, `k = 0`,
`enc z = [z + 1]` (every slice embeds to a non-zero chunk), metadata the slice
index itself. -/
theorem c4_resumed_run_matches_uninterrupted_witness :
    (0 + 1 < 3 ∧ ∀ z, z < 3 → isNonzeroEmb ((fun z : Nat => [(z : Int) + 1]) z) = true) ∧
    ((precompute3d (fun z : Nat => [(z : Int) + 1]) (fun z => z) (fun z => z) 3
        (interruptedStore3d (fun z : Nat => [(z : Int) + 1]) 3 0) false).store.features =
      (precompute3d (fun z : Nat => [(z : Int) + 1]) (fun z => z) (fun z => z) 3
        ⟨none, none⟩ false).store.features ∧
    (precompute3d (fun z : Nat => [(z : Int) + 1]) (fun z => z) (fun z => z) 3
        (interruptedStore3d (fun z : Nat => [(z : Int) + 1]) 3 0) false).featuresOut =
      (precompute3d (fun z : Nat => [(z : Int) + 1]) (fun z => z) (fun z => z) 3
        ⟨none, none⟩ false).featuresOut ∧
    (precompute3d (fun z : Nat => [(z : Int) + 1]) (fun z => z) (fun z => z) 3
        (interruptedStore3d (fun z : Nat => [(z : Int) + 1]) 3 0) false).store.features =
      some ((List.range 3).map (fun z : Nat => [(z : Int) + 1])) ∧
    encodeIndices (precompute3d (fun z : Nat => [(z : Int) + 1]) (fun z => z) (fun z => z) 3
        (interruptedStore3d (fun z : Nat => [(z : Int) + 1]) 3 0) false).tr =
      List.range' (0 + 1) (3 - (0 + 1)) ∧
    encodeIndices (precompute3d (fun z : Nat => [(z : Int) + 1]) (fun z => z) (fun z => z) 3
        ⟨none, none⟩ false).tr = List.range 3) :=
  ⟨⟨by decide, by intro z hz; have hz3 : z = 0 ∨ z = 1 ∨ z = 2 := (by omega); rcases hz3 with h | h | h <;> subst h <;> decide⟩,
    c4_resumed_run_matches_uninterrupted (fun z : Nat => [(z : Int) + 1]) (fun z => z)
      (fun z => z) 3 0 (by decide) (by intro z hz; have hz3 : z = 0 ∨ z = 1 ∨ z = 2 := (by omega); rcases hz3 with h | h | h <;> subst h <;> decide)⟩

/-- C5: calling the persisted computation a second time on an already fully
computed container with the same input performs no work at all (empty event
trace, hence the encoder is not re-invoked) and returns bit-identical features,
both in the 3D case (with eager loading) and in the 2D case. -/
theorem c5_second_call_idempotent {M : Type} (enc : Nat → Emb) (mi mo : Nat → M)
    (zDim : Nat) (encImage : Emb) (miv mov : M) :
    ((precompute3d enc mi mo zDim
        (precompute3d enc mi mo zDim ⟨none, none⟩ false).store false).tr = [] ∧
      encodeIndices (precompute3d enc mi mo zDim
        (precompute3d enc mi mo zDim ⟨none, none⟩ false).store false).tr = [] ∧
      (precompute3d enc mi mo zDim
        (precompute3d enc mi mo zDim ⟨none, none⟩ false).store false).featuresOut =
        (precompute3d enc mi mo zDim ⟨none, none⟩ false).featuresOut ∧
      (precompute3d enc mi mo zDim
        (precompute3d enc mi mo zDim ⟨none, none⟩ false).store false).store =
        (precompute3d enc mi mo zDim ⟨none, none⟩ false).store) ∧
    ((precompute2d encImage miv mov
        (precompute2d encImage miv mov ⟨none, none⟩).store).tr = [] ∧
      (precompute2d encImage miv mov
        (precompute2d encImage miv mov ⟨none, none⟩).store).featuresOut =
        (precompute2d encImage miv mov ⟨none, none⟩).featuresOut ∧
      (precompute2d encImage miv mov
        (precompute2d encImage miv mov ⟨none, none⟩).store).store =
        (precompute2d encImage miv mov ⟨none, none⟩).store) :=
  ⟨⟨rfl, rfl, rfl, rfl⟩, ⟨rfl, rfl, rfl⟩⟩

/-- C6 counterexample: the claim says the metadata pair is captured from the
first slice actually computed, but in `_precompute_3d` the capture is unguarded
and runs on every computed slice, so the last one wins.  With two slices and
per-slice metadata equal to the slice index, the stored `input_size` is `1`
(slice 1, the last computed), not `0` (slice 0, the first computed). -/
theorem c6_metadata_counterexample :
    (precompute3d (M := Nat) (fun _ => [1]) (fun z => z) (fun z => z) 2
        ⟨none, none⟩ false).store.meta = some (some 1, some 1) ∧
    (precompute3d (M := Nat) (fun _ => [1]) (fun z => z) (fun z => z) 2
        ⟨none, none⟩ false).store.meta ≠ some (some 0, some 0) := by
  constructor
  · rfl
  · decide

/-- C6 (amended): in the persisted 3D computation the metadata pair
`(original_size, input_size)` is captured from the last slice actually computed
(for both a fresh run and a resumed run that is the final slice `zDim - 1`), it
is written to the store exactly once on completion of the slice loop, and a
further call on the completed store leaves the metadata unchanged and writes no
attributes. -/
theorem c6_metadata_last_slice_written_once {M : Type} (enc : Nat → Emb)
    (mi mo : Nat → M) (zDim k : Nat) (hk : k + 1 < zDim)
    (hnz : ∀ z, z < zDim → isNonzeroEmb (enc z) = true) :
    ((precompute3d enc mi mo zDim ⟨none, none⟩ false).store.meta =
        some (some (mi (zDim - 1)), some (mo (zDim - 1))) ∧
      writeAttrsCount (precompute3d enc mi mo zDim ⟨none, none⟩ false).tr = 1) ∧
    ((precompute3d enc mi mo zDim (interruptedStore3d enc zDim k) false).store.meta =
        some (some (mi (zDim - 1)), some (mo (zDim - 1))) ∧
      writeAttrsCount
        (precompute3d enc mi mo zDim (interruptedStore3d enc zDim k) false).tr = 1) ∧
    ((precompute3d enc mi mo zDim
        (precompute3d enc mi mo zDim ⟨none, none⟩ false).store false).store.meta =
        (precompute3d enc mi mo zDim ⟨none, none⟩ false).store.meta ∧
      writeAttrsCount (precompute3d enc mi mo zDim
        (precompute3d enc mi mo zDim ⟨none, none⟩ false).store false).tr = 0) := by
  obtain ⟨trF, heqF, _, hwaF⟩ := precompute3d_fresh_spec enc mi mo zDim (by omega)
  obtain ⟨trR, heqR, _, hwaR⟩ := precompute3d_resumed_spec enc mi mo zDim k hk hnz
  rw [heqF, heqR]
  exact ⟨⟨rfl, hwaF⟩, ⟨rfl, hwaR⟩, rfl, rfl⟩

/-- C6 witness: the amended theorem at the concrete input `zDim = 3`, `k = 0`,
`enc z = [z + 1]`, metadata the slice index itself (so the stored metadata is
that of slice `2`, the last slice computed). -/
theorem c6_metadata_last_slice_written_once_witness :
    (0 + 1 < 3 ∧ ∀ z, z < 3 → isNonzeroEmb ((fun z : Nat => [(z : Int) + 1]) z) = true) ∧
    (((precompute3d (fun z : Nat => [(z : Int) + 1]) (fun z => z) (fun z => z) 3
        ⟨none, none⟩ false).store.meta = some (some (3 - 1), some (3 - 1)) ∧
      writeAttrsCount (precompute3d (fun z : Nat => [(z : Int) + 1]) (fun z => z) (fun z => z) 3
        ⟨none, none⟩ false).tr = 1) ∧
    ((precompute3d (fun z : Nat => [(z : Int) + 1]) (fun z => z) (fun z => z) 3
        (interruptedStore3d (fun z : Nat => [(z : Int) + 1]) 3 0) false).store.meta =
        some (some (3 - 1), some (3 - 1)) ∧
      writeAttrsCount (precompute3d (fun z : Nat => [(z : Int) + 1]) (fun z => z) (fun z => z) 3
        (interruptedStore3d (fun z : Nat => [(z : Int) + 1]) 3 0) false).tr = 1) ∧
    ((precompute3d (fun z : Nat => [(z : Int) + 1]) (fun z => z) (fun z => z) 3
        (precompute3d (fun z : Nat => [(z : Int) + 1]) (fun z => z) (fun z => z) 3
          ⟨none, none⟩ false).store false).store.meta =
        (precompute3d (fun z : Nat => [(z : Int) + 1]) (fun z => z) (fun z => z) 3
          ⟨none, none⟩ false).store.meta ∧
      writeAttrsCount (precompute3d (fun z : Nat => [(z : Int) + 1]) (fun z => z) (fun z => z) 3
        (precompute3d (fun z : Nat => [(z : Int) + 1]) (fun z => z) (fun z => z) 3
          ⟨none, none⟩ false).store false).tr = 0)) :=
  ⟨⟨by decide, by intro z hz; have hz3 : z = 0 ∨ z = 1 ∨ z = 2 := (by omega); rcases hz3 with h | h | h <;> subst h <;> decide⟩,
    c6_metadata_last_slice_written_once (fun z : Nat => [(z : Int) + 1]) (fun z => z)
      (fun z => z) 3 0 (by decide) (by intro z hz; have hz3 : z = 0 ∨ z = 1 ∨ z = 2 := (by omega); rcases hz3 with h | h | h <;> subst h <;> decide)⟩

end MicroSam

namespace MicroSam

/-! Helper lemmas for the propagation engine traces. -/

theorem writeCount_append (t1 t2 : List SegEv) (z : Int) :
    writeCount (t1 ++ t2) z = writeCount t1 z + writeCount t2 z := by
  simp [writeCount, List.countP_append]

theorem wcallCount_append (t1 t2 : List SegEv) (z : Int) :
    wcallCount (t1 ++ t2) z = wcallCount t1 z + wcallCount t2 z := by
  simp [wcallCount, List.countP_append]

theorem ucallCount_append (t1 t2 : List SegEv) :
    ucallCount (t1 ++ t2) = ucallCount t1 + ucallCount t2 := by
  simp [ucallCount, List.countP_append]

theorem iouStopCount_append (t1 t2 : List SegEv) :
    iouStopCount (t1 ++ t2) = iouStopCount t1 + iouStopCount t2 := by
  simp [iouStopCount, List.countP_append]

theorem progCount_append (t1 t2 : List SegEv) :
    progCount (t1 ++ t2) = progCount t1 + progCount t2 := by
  simp [progCount, List.countP_append]

theorem writeTotal_append (t1 t2 : List SegEv) :
    writeTotal (t1 ++ t2) = writeTotal t1 + writeTotal t2 := by
  simp [writeTotal, List.countP_append]

/-- Characterization of the `segment_range` loop with no threshold, increment `+1`
and a stopping criterion equivalent to reaching the bound `C`: starting at `a` with
`C = a + n` (`n ≥ 1` steps available and enough fuel), the walk writes exactly the
slices `a, a+1, …, C-1` once each with one oracle call per slice, performs no
union call and no IOU stop, increments the progress bar exactly `n - 1` times, and
leaves every slice outside `[a, C)` untouched. -/
theorem segRangeLoop_fwd_none (orc : Oracle) (um ub : Bool) (B C : Int)
    (stop : Int → Int → Bool) (hstop : ∀ z, stop z B = decide (C ≤ z)) :
    ∀ (n : Nat) (a : Int) (st : EngSt) (fuel : Nat), C = a + n → 1 ≤ n → n ≤ fuel →
      ∃ tw sg,
        segRangeLoop orc um ub none B 1 stop fuel a st = ⟨sg, st.tr ++ tw⟩ ∧
        (∀ z, writeCount tw z = if a ≤ z ∧ z < C then 1 else 0) ∧
        (∀ z, wcallCount tw z = if a ≤ z ∧ z < C then 1 else 0) ∧
        ucallCount tw = 0 ∧ iouStopCount tw = 0 ∧ progCount tw + 1 = n ∧
        (∀ z, (z < a ∨ C ≤ z) → sg z = st.seg z) := by
  intro n
  induction n with
  | zero => intro a st fuel _ h1 _; omega
  | succ m ih =>
    intro a st fuel hC _ hfuel
    obtain ⟨f, rfl⟩ : ∃ f, fuel = f + 1 := ⟨fuel - 1, by omega⟩
    have hunfold : segRangeLoop orc um ub none B 1 stop (f+1) a st =
        (if stop (a+1) B = true then
          (⟨upd st.seg a (orc (st.seg (a-1)) a um ub),
            (st.tr ++ [SegEv.wcall a (st.seg (a-1))]) ++
              [SegEv.write a (orc (st.seg (a-1)) a um ub)]⟩ : EngSt)
        else
          segRangeLoop orc um ub none B 1 stop f (a+1)
            ⟨upd st.seg a (orc (st.seg (a-1)) a um ub),
              ((st.tr ++ [SegEv.wcall a (st.seg (a-1))]) ++
                [SegEv.write a (orc (st.seg (a-1)) a um ub)]) ++ [SegEv.prog]⟩) := rfl
    rcases Nat.eq_zero_or_pos m with hm | hm
    · subst hm
      have hd : stop (a+1) B = true := by
        rw [hstop]
        simp only [decide_eq_true_eq]
        omega
      rw [hunfold, if_pos hd]
      refine ⟨[SegEv.wcall a (st.seg (a-1)), SegEv.write a (orc (st.seg (a-1)) a um ub)],
        upd st.seg a (orc (st.seg (a-1)) a um ub), by simp, ?_, ?_, by rfl, by rfl, by rfl, ?_⟩
      · intro z
        by_cases hz : a = z
        · subst hz
          have hlt : a < C := by omega
          simp [writeCount, List.countP_cons, hlt]
        · have hz2 : ¬ (a ≤ z ∧ z < C) := by omega
          simp [writeCount, List.countP_cons, hz, hz2]
      · intro z
        by_cases hz : a = z
        · subst hz
          have hlt : a < C := by omega
          simp [wcallCount, List.countP_cons, hlt]
        · have hz2 : ¬ (a ≤ z ∧ z < C) := by omega
          simp [wcallCount, List.countP_cons, hz, hz2]
      · intro z hz
        have hza : z ≠ a := by omega
        simp [upd, hza]
    · have hd : stop (a+1) B = false := by
        rw [hstop]
        simp only [decide_eq_false_iff_not]
        omega
      rw [hunfold, if_neg (by rw [hd]; exact Bool.false_ne_true)]
      obtain ⟨tw2, sg, heq, hw, hwc, hu, hi, hp, hseg⟩ := ih (a+1)
        ⟨upd st.seg a (orc (st.seg (a-1)) a um ub),
          ((st.tr ++ [SegEv.wcall a (st.seg (a-1))]) ++
            [SegEv.write a (orc (st.seg (a-1)) a um ub)]) ++ [SegEv.prog]⟩
        f (by omega) hm (by omega)
      refine ⟨[SegEv.wcall a (st.seg (a-1)), SegEv.write a (orc (st.seg (a-1)) a um ub),
        SegEv.prog] ++ tw2, sg, ?_, ?_, ?_, ?_, ?_, ?_, ?_⟩
      · rw [heq]
        congr 1
        simp
      · intro z
        rw [writeCount_append, hw z]
        by_cases hz : a = z
        · subst hz
          have h2 : ¬ (a + 1 ≤ a ∧ a < C) := by omega
          have h3 : a ≤ a ∧ a < C := by omega
          simp [writeCount, List.countP_cons, h2, h3]
        · have h4 : (a + 1 ≤ z ∧ z < C) ↔ (a ≤ z ∧ z < C) := by
            constructor <;> intro h <;> (constructor; omega; omega)
          by_cases h5 : a + 1 ≤ z ∧ z < C
          · simp [writeCount, List.countP_cons, hz, h5, h4.mp h5]
          · have h6 : ¬ (a ≤ z ∧ z < C) := fun hh => h5 (by omega)
            simp [writeCount, List.countP_cons, hz, h5, h6]
      · intro z
        rw [wcallCount_append, hwc z]
        by_cases hz : a = z
        · subst hz
          have h2 : ¬ (a + 1 ≤ a ∧ a < C) := by omega
          have h3 : a ≤ a ∧ a < C := by omega
          simp [wcallCount, List.countP_cons, h2, h3]
        · by_cases h5 : a + 1 ≤ z ∧ z < C
          · have h7 : a ≤ z ∧ z < C := by omega
            simp [wcallCount, List.countP_cons, hz, h5, h7]
          · have h6 : ¬ (a ≤ z ∧ z < C) := fun hh => h5 (by omega)
            simp [wcallCount, List.countP_cons, hz, h5, h6]
      · rw [ucallCount_append, hu]
        rfl
      · rw [iouStopCount_append, hi]
        rfl
      · rw [progCount_append]
        have : progCount [SegEv.wcall a (st.seg (a-1)),
            SegEv.write a (orc (st.seg (a-1)) a um ub), SegEv.prog] = 1 := rfl
        omega
      · intro z hz
        have hz1 : z < a + 1 ∨ C ≤ z := by omega
        rw [hseg z hz1]
        have hza : z ≠ a := by omega
        simp [upd, hza]

end MicroSam

namespace MicroSam

/-- Characterization of the `segment_range` loop with no threshold, increment `-1`
and a stopping criterion equivalent to reaching the bound `C` from above: starting
at `a` with `a = C + n` (`n ≥ 1`), the walk writes exactly the slices
`a, a-1, …, C+1` once each, performs no union call and no IOU stop, increments the
progress bar exactly `n - 1` times, and leaves every slice outside `(C, a]`
untouched. -/
theorem segRangeLoop_bwd_none (orc : Oracle) (um ub : Bool) (B C : Int)
    (stop : Int → Int → Bool) (hstop : ∀ z, stop z B = decide (z ≤ C)) :
    ∀ (n : Nat) (a : Int) (st : EngSt) (fuel : Nat), a = C + n → 1 ≤ n → n ≤ fuel →
      ∃ tw sg,
        segRangeLoop orc um ub none B (-1) stop fuel a st = ⟨sg, st.tr ++ tw⟩ ∧
        (∀ z, writeCount tw z = if C < z ∧ z ≤ a then 1 else 0) ∧
        (∀ z, wcallCount tw z = if C < z ∧ z ≤ a then 1 else 0) ∧
        ucallCount tw = 0 ∧ iouStopCount tw = 0 ∧ progCount tw + 1 = n ∧
        (∀ z, (z ≤ C ∨ a < z) → sg z = st.seg z) := by
  intro n
  induction n with
  | zero => intro a st fuel _ h1 _; omega
  | succ m ih =>
    intro a st fuel hC _ hfuel
    obtain ⟨f, rfl⟩ : ∃ f, fuel = f + 1 := ⟨fuel - 1, by omega⟩
    have hunfold : segRangeLoop orc um ub none B (-1) stop (f+1) a st =
        (if stop (a + (-1)) B = true then
          (⟨upd st.seg a (orc (st.seg (a - (-1))) a um ub),
            (st.tr ++ [SegEv.wcall a (st.seg (a - (-1)))]) ++
              [SegEv.write a (orc (st.seg (a - (-1))) a um ub)]⟩ : EngSt)
        else
          segRangeLoop orc um ub none B (-1) stop f (a + (-1))
            ⟨upd st.seg a (orc (st.seg (a - (-1))) a um ub),
              ((st.tr ++ [SegEv.wcall a (st.seg (a - (-1)))]) ++
                [SegEv.write a (orc (st.seg (a - (-1))) a um ub)]) ++ [SegEv.prog]⟩) := rfl
    rcases Nat.eq_zero_or_pos m with hm | hm
    · subst hm
      have hd : stop (a + (-1)) B = true := by
        rw [hstop]
        simp only [decide_eq_true_eq]
        omega
      rw [hunfold, if_pos hd]
      refine ⟨[SegEv.wcall a (st.seg (a - (-1))),
        SegEv.write a (orc (st.seg (a - (-1))) a um ub)],
        upd st.seg a (orc (st.seg (a - (-1))) a um ub), by simp, ?_, ?_,
        by rfl, by rfl, by rfl, ?_⟩
      · intro z
        by_cases hz : a = z
        · subst hz
          have hlt : C < a := by omega
          simp [writeCount, List.countP_cons, hlt]
        · have hz2 : ¬ (C < z ∧ z ≤ a) := by omega
          simp [writeCount, List.countP_cons, hz, hz2]
      · intro z
        by_cases hz : a = z
        · subst hz
          have hlt : C < a := by omega
          simp [wcallCount, List.countP_cons, hlt]
        · have hz2 : ¬ (C < z ∧ z ≤ a) := by omega
          simp [wcallCount, List.countP_cons, hz, hz2]
      · intro z hz
        have hza : z ≠ a := by omega
        simp [upd, hza]
    · have hd : stop (a + (-1)) B = false := by
        rw [hstop]
        simp only [decide_eq_false_iff_not]
        omega
      rw [hunfold, if_neg (by rw [hd]; exact Bool.false_ne_true)]
      obtain ⟨tw2, sg, heq, hw, hwc, hu, hi, hp, hseg⟩ := ih (a + (-1))
        ⟨upd st.seg a (orc (st.seg (a - (-1))) a um ub),
          ((st.tr ++ [SegEv.wcall a (st.seg (a - (-1)))]) ++
            [SegEv.write a (orc (st.seg (a - (-1))) a um ub)]) ++ [SegEv.prog]⟩
        f (by omega) hm (by omega)
      refine ⟨[SegEv.wcall a (st.seg (a - (-1))),
        SegEv.write a (orc (st.seg (a - (-1))) a um ub),
        SegEv.prog] ++ tw2, sg, ?_, ?_, ?_, ?_, ?_, ?_, ?_⟩
      · rw [heq]
        congr 1
        simp
      · intro z
        rw [writeCount_append, hw z]
        by_cases hz : a = z
        · subst hz
          have h2 : ¬ (C < a ∧ a ≤ a + (-1)) := by omega
          have h3 : C < a ∧ a ≤ a := by omega
          simp [writeCount, List.countP_cons, h2, h3]
        · by_cases h5 : C < z ∧ z ≤ a + (-1)
          · have h7 : C < z ∧ z ≤ a := by omega
            rw [if_pos h5, if_pos h7]
            simp [writeCount, List.countP_cons, hz]
          · have h6 : ¬ (C < z ∧ z ≤ a) := fun hh => h5 (by omega)
            rw [if_neg h5, if_neg h6]
            simp [writeCount, List.countP_cons, hz]
      · intro z
        rw [wcallCount_append, hwc z]
        by_cases hz : a = z
        · subst hz
          have h2 : ¬ (C < a ∧ a ≤ a + (-1)) := by omega
          have h3 : C < a ∧ a ≤ a := by omega
          simp [wcallCount, List.countP_cons, h2, h3]
        · by_cases h5 : C < z ∧ z ≤ a + (-1)
          · have h7 : C < z ∧ z ≤ a := by omega
            rw [if_pos h5, if_pos h7]
            simp [wcallCount, List.countP_cons, hz]
          · have h6 : ¬ (C < z ∧ z ≤ a) := fun hh => h5 (by omega)
            rw [if_neg h5, if_neg h6]
            simp [wcallCount, List.countP_cons, hz]
      · rw [ucallCount_append, hu]
        rfl
      · rw [iouStopCount_append, hi]
        rfl
      · rw [progCount_append]
        have : progCount [SegEv.wcall a (st.seg (a - (-1))),
            SegEv.write a (orc (st.seg (a - (-1))) a um ub), SegEv.prog] = 1 := rfl
        omega
      · intro z hz
        have hz1 : z ≤ C ∨ a + (-1) < z := by omega
        rw [hseg z hz1]
        have hza : z ≠ a := by omega
        simp [upd, hza]

end MicroSam

namespace MicroSam

/-- Branch selection in `interpPair`: adjacent slices (`slice_diff == 1`). -/
theorem interpPair_adjacent (orc : Oracle) (um ub : Bool) (z0 z1 a b : Int)
    (sl su : Bool) (st : EngSt) (h1 : b - a = 1) :
    interpPair orc um ub z0 z1 sl su (a, b) st = st := by
  unfold interpPair
  simp only [h1, if_pos]

/-- Branch selection in `interpPair`: the `stop_lower` special case. -/
theorem interpPair_stop_lower (orc : Oracle) (um ub : Bool) (z0 z1 a b : Int)
    (sl su : Bool) (st : EngSt) (h1 : ¬ b - a = 1) (hsl : a = z0 ∧ sl = true) :
    interpPair orc um ub z0 z1 sl su (a, b) st =
      segRange orc um ub b a (-1) (fun x y => decide (x ≤ y)) none st := by
  unfold interpPair
  simp only [if_neg h1, if_pos hsl]

/-- Branch selection in `interpPair`: the `stop_upper` special case. -/
theorem interpPair_stop_upper (orc : Oracle) (um ub : Bool) (z0 z1 a b : Int)
    (sl su : Bool) (st : EngSt) (h1 : ¬ b - a = 1) (hL : ¬ (a = z0 ∧ sl = true))
    (hsu : b = z1 ∧ su = true) :
    interpPair orc um ub z0 z1 sl su (a, b) st =
      segRange orc um ub a b 1 (fun x y => decide (y ≤ x)) none st := by
  unfold interpPair
  simp only [if_neg h1, if_neg hL, if_pos hsu]

/-- Branch selection in `interpPair`: the single in-between slice
(`slice_diff == 2`), segmented from the union of the two bounding masks. -/
theorem interpPair_two (orc : Oracle) (um ub : Bool) (z0 z1 a b : Int)
    (sl su : Bool) (st : EngSt) (h1 : ¬ b - a = 1) (hL : ¬ (a = z0 ∧ sl = true))
    (hU : ¬ (b = z1 ∧ su = true)) (h2 : b - a = 2) :
    interpPair orc um ub z0 z1 sl su (a, b) st =
      ⟨upd st.seg (a + 1) (orc (maskOr (st.seg a) (st.seg b)) (a + 1) um ub),
        st.tr ++ [SegEv.ucall (a + 1) (maskOr (st.seg a) (st.seg b)),
          SegEv.write (a + 1) (orc (maskOr (st.seg a) (st.seg b)) (a + 1) um ub),
          SegEv.prog]⟩ := by
  unfold interpPair
  simp only [if_neg h1, if_neg hL, if_neg hU, if_pos h2]

/-- Branch selection in `interpPair`: the general case (`slice_diff > 2`), two
directed walks toward `z_mid` followed by the union step when the gap is even. -/
theorem interpPair_general (orc : Oracle) (um ub : Bool) (z0 z1 a b : Int)
    (sl su : Bool) (st : EngSt) (h1 : ¬ b - a = 1) (hL : ¬ (a = z0 ∧ sl = true))
    (hU : ¬ (b = z1 ∧ su = true)) (h2 : ¬ b - a = 2) :
    interpPair orc um ub z0 z1 sl su (a, b) st =
      (let st1 := segRange orc um ub a ((a + b) / 2) 1
        (if (b - a) % 2 = 0 then (fun x y => decide (y ≤ x))
          else (fun x y => decide (y < x))) none st
       let st2 := segRange orc um ub b ((a + b) / 2) (-1)
        (fun x y => decide (x ≤ y)) none st1
       if (b - a) % 2 = 0 then
         (⟨upd st2.seg ((a + b) / 2)
            (orc (maskOr (st2.seg ((a + b) / 2 - 1)) (st2.seg ((a + b) / 2 + 1)))
              ((a + b) / 2) um ub),
          st2.tr ++ [SegEv.ucall ((a + b) / 2)
              (maskOr (st2.seg ((a + b) / 2 - 1)) (st2.seg ((a + b) / 2 + 1))),
            SegEv.write ((a + b) / 2)
              (orc (maskOr (st2.seg ((a + b) / 2 - 1)) (st2.seg ((a + b) / 2 + 1)))
                ((a + b) / 2) um ub),
            SegEv.prog]⟩ : EngSt)
       else st2) := by
  unfold interpPair
  simp only [if_neg h1, if_neg hL, if_neg hU, if_neg h2]

end MicroSam

namespace MicroSam

/-- C1: for interpolation between consecutive annotated slices `a < b` with gap
`d = b - a > 2` (and neither stop flag applying to this pair), the engine walks
forward from `a` and backward from `b` toward `mid = (a + b) / 2`; every slice
strictly between `a` and `b` is written exactly once, slices outside are
untouched; when `d` is even neither walk writes `mid` (the forward walk covers
`(a, mid)` and the backward walk `(mid, b)`) and `mid` is then segmented once
from the logical OR of the masks at `mid - 1` and `mid + 1`; when `d` is odd the
forward walk itself covers `(a, mid]` and no union-combine step occurs. -/
theorem c1_parity_interpolation (orc : Oracle) (um ub : Bool) (z0 z1 a b : Int)
    (sl su : Bool) (st : EngSt)
    (hd : 2 < b - a) (hL : ¬ (a = z0 ∧ sl = true)) (hU : ¬ (b = z1 ∧ su = true)) :
    ∃ twF twB twM sg,
      interpPair orc um ub z0 z1 sl su (a, b) st = ⟨sg, st.tr ++ (twF ++ twB ++ twM)⟩ ∧
      (∀ z, writeCount (twF ++ twB ++ twM) z = if a < z ∧ z < b then 1 else 0) ∧
      (∀ z, (z ≤ a ∨ b ≤ z) → sg z = st.seg z) ∧
      (∀ z, writeCount twB z = if (a + b) / 2 < z ∧ z < b then 1 else 0) ∧
      ((b - a) % 2 = 0 →
        (∀ z, writeCount twF z = if a < z ∧ z < (a + b) / 2 then 1 else 0) ∧
        ucallCount twF = 0 ∧ ucallCount twB = 0 ∧
        twM = [SegEv.ucall ((a + b) / 2)
            (maskOr (sg ((a + b) / 2 - 1)) (sg ((a + b) / 2 + 1))),
          SegEv.write ((a + b) / 2)
            (orc (maskOr (sg ((a + b) / 2 - 1)) (sg ((a + b) / 2 + 1))) ((a + b) / 2) um ub),
          SegEv.prog]) ∧
      ((b - a) % 2 = 1 →
        twM = [] ∧ ucallCount (twF ++ twB) = 0 ∧
        (∀ z, writeCount twF z = if a < z ∧ z ≤ (a + b) / 2 then 1 else 0)) := by
  have h1 : ¬ b - a = 1 := by omega
  have h2 : ¬ b - a = 2 := by omega
  rw [interpPair_general orc um ub z0 z1 a b sl su st h1 hL hU h2]
  rcases Int.emod_two_eq_zero_or_one (b - a) with hpar | hpar
  · -- even gap
    have hm2 : 2 * ((a + b) / 2) = a + b := by omega
    simp only [hpar, if_pos]
    unfold segRange
    obtain ⟨twF, sg1, heqF, hwF, hwcF, huF, hiF, hpF, hsegF⟩ :=
      segRangeLoop_fwd_none orc um ub ((a + b) / 2) ((a + b) / 2)
        (fun x y => decide (y ≤ x)) (fun z => rfl)
        ((a + b) / 2 - (a + 1)).toNat (a + 1) st (((a + b) / 2 - a).natAbs + 1)
        (by omega) (by omega) (by omega)
    rw [heqF]
    obtain ⟨twB, sg2, heqB, hwB, hwcB, huB, hiB, hpB, hsegB⟩ :=
      segRangeLoop_bwd_none orc um ub ((a + b) / 2) ((a + b) / 2)
        (fun x y => decide (x ≤ y)) (fun z => rfl)
        ((b - 1) - (a + b) / 2).toNat (b + (-1)) ⟨sg1, st.tr ++ twF⟩
        (((a + b) / 2 - b).natAbs + 1) (by omega) (by omega) (by omega)
    rw [heqB]
    have hmid1 : ¬ ((a + b) / 2 - 1 = (a + b) / 2) := by omega
    have hmid2 : ¬ ((a + b) / 2 + 1 = (a + b) / 2) := by omega
    refine ⟨twF, twB,
      [SegEv.ucall ((a + b) / 2) (maskOr (sg2 ((a + b) / 2 - 1)) (sg2 ((a + b) / 2 + 1))),
        SegEv.write ((a + b) / 2)
          (orc (maskOr (sg2 ((a + b) / 2 - 1)) (sg2 ((a + b) / 2 + 1))) ((a + b) / 2) um ub),
        SegEv.prog],
      upd sg2 ((a + b) / 2)
        (orc (maskOr (sg2 ((a + b) / 2 - 1)) (sg2 ((a + b) / 2 + 1))) ((a + b) / 2) um ub),
      ?_, ?_, ?_, ?_, ?_, ?_⟩
    · simp [List.append_assoc]
    · intro z
      rw [writeCount_append, writeCount_append, hwF z, hwB z]
      have hM : writeCount
          [SegEv.ucall ((a + b) / 2) (maskOr (sg2 ((a + b) / 2 - 1)) (sg2 ((a + b) / 2 + 1))),
            SegEv.write ((a + b) / 2)
              (orc (maskOr (sg2 ((a + b) / 2 - 1)) (sg2 ((a + b) / 2 + 1))) ((a + b) / 2) um ub),
            SegEv.prog] z = if (a + b) / 2 = z then 1 else 0 := by
        by_cases h : (a + b) / 2 = z <;> simp [writeCount, List.countP_cons, h]
      rw [hM]
      split_ifs <;> omega
    · intro z hz
      have hzm : ¬ (z = (a + b) / 2) := by omega
      rw [show upd sg2 ((a + b) / 2)
          (orc (maskOr (sg2 ((a + b) / 2 - 1)) (sg2 ((a + b) / 2 + 1))) ((a + b) / 2) um ub) z
          = sg2 z from by simp [upd, hzm]]
      rw [hsegB z (by omega)]
      exact hsegF z (by omega)
    · intro z
      rw [hwB z]
      split_ifs <;> omega
    · intro _
      refine ⟨?_, huF, huB, ?_⟩
      · intro z
        rw [hwF z]
        split_ifs <;> omega
      · rw [show upd sg2 ((a + b) / 2)
            (orc (maskOr (sg2 ((a + b) / 2 - 1)) (sg2 ((a + b) / 2 + 1))) ((a + b) / 2) um ub)
            ((a + b) / 2 - 1) = sg2 ((a + b) / 2 - 1) from by simp [upd, hmid1]]
        rw [show upd sg2 ((a + b) / 2)
            (orc (maskOr (sg2 ((a + b) / 2 - 1)) (sg2 ((a + b) / 2 + 1))) ((a + b) / 2) um ub)
            ((a + b) / 2 + 1) = sg2 ((a + b) / 2 + 1) from by simp [upd, hmid2]]
    · intro hodd
      omega
  · -- odd gap
    have hm2 : 2 * ((a + b) / 2) + 1 = a + b := by omega
    have hne : ¬ ((b - a) % 2 = 0) := by omega
    simp only [if_neg hne]
    unfold segRange
    obtain ⟨twF, sg1, heqF, hwF, hwcF, huF, hiF, hpF, hsegF⟩ :=
      segRangeLoop_fwd_none orc um ub ((a + b) / 2) ((a + b) / 2 + 1)
        (fun x y => decide (y < x))
        (fun z => decide_eq_decide.mpr (by omega))
        ((a + b) / 2 + 1 - (a + 1)).toNat (a + 1) st (((a + b) / 2 - a).natAbs + 1)
        (by omega) (by omega) (by omega)
    rw [heqF]
    obtain ⟨twB, sg2, heqB, hwB, hwcB, huB, hiB, hpB, hsegB⟩ :=
      segRangeLoop_bwd_none orc um ub ((a + b) / 2) ((a + b) / 2)
        (fun x y => decide (x ≤ y)) (fun z => rfl)
        ((b - 1) - (a + b) / 2).toNat (b + (-1)) ⟨sg1, st.tr ++ twF⟩
        (((a + b) / 2 - b).natAbs + 1) (by omega) (by omega) (by omega)
    rw [heqB]
    refine ⟨twF, twB, [], sg2, ?_, ?_, ?_, ?_, ?_, ?_⟩
    · simp [List.append_assoc]
    · intro z
      rw [writeCount_append, writeCount_append, hwF z, hwB z]
      have hM : writeCount ([] : List SegEv) z = 0 := rfl
      rw [hM]
      split_ifs <;> omega
    · intro z hz
      rw [hsegB z (by omega)]
      exact hsegF z (by omega)
    · intro z
      rw [hwB z]
      split_ifs <;> omega
    · intro heven
      omega
    · intro _
      refine ⟨rfl, ?_, ?_⟩
      · rw [ucallCount_append, huF, huB]
      · intro z
        rw [hwF z]
        split_ifs <;> omega

end MicroSam

namespace MicroSam

theorem maskOr_getD (x : Mask) : ∀ (y : Mask) (i : Nat), i < x.length → i < y.length →
    (maskOr x y).getD i 0 =
      if ((x.getD i 0) = 1 ∨ (y.getD i 0) = 1) then 1 else 0 := by
  induction x with
  | nil =>
    intro y i h1 _
    simp at h1
  | cons xa xt ih =>
    intro y i h1 h2
    cases y with
    | nil => simp at h2
    | cons ya yt =>
      cases i with
      | zero => simp [maskOr]
      | succ j =>
        have h1j : j < xt.length := by simpa using h1
        have h2j : j < yt.length := by simpa using h2
        simp only [maskOr, List.zipWith_cons_cons, List.getD_cons_succ]
        exact ih yt j h1j h2j

/-- C3: for interpolation between consecutive annotated slices with gap `d = 2`
(and neither stop flag applying to this pair), the single in-between slice
`a + 1` is segmented once from the single combined prompt equal to the logical
OR of the foreground pixels of the two bounding masks at `a` and `b`, with no
directional walk: the whole effect of the pair is one union call, one write at
`a + 1` and one progress increment, and the prompt has a foreground pixel
exactly where either bounding mask does. -/
theorem c3_gap_two_union_prompt (orc : Oracle) (um ub : Bool) (z0 z1 a b : Int)
    (sl su : Bool) (st : EngSt)
    (hd : b - a = 2) (hL : ¬ (a = z0 ∧ sl = true)) (hU : ¬ (b = z1 ∧ su = true))
    (hlen : (st.seg a).length = (st.seg b).length) :
    interpPair orc um ub z0 z1 sl su (a, b) st =
      ⟨upd st.seg (a + 1) (orc (maskOr (st.seg a) (st.seg b)) (a + 1) um ub),
        st.tr ++ [SegEv.ucall (a + 1) (maskOr (st.seg a) (st.seg b)),
          SegEv.write (a + 1) (orc (maskOr (st.seg a) (st.seg b)) (a + 1) um ub),
          SegEv.prog]⟩ ∧
    (∀ i, i < (st.seg a).length →
      ((maskOr (st.seg a) (st.seg b)).getD i 0 = 1 ↔
        ((st.seg a).getD i 0 = 1 ∨ (st.seg b).getD i 0 = 1))) := by
  constructor
  · exact interpPair_two orc um ub z0 z1 a b sl su st (by omega) hL hU hd
  · intro i hi
    rw [maskOr_getD (st.seg a) (st.seg b) i hi (hlen ▸ hi)]
    by_cases hcond : ((st.seg a).getD i 0 = 1 ∨ (st.seg b).getD i 0 = 1)
    · rw [if_pos hcond]
      exact ⟨fun _ => hcond, fun _ => rfl⟩
    · rw [if_neg hcond]
      constructor
      · intro h
        exact absurd h (by decide)
      · intro h
        exact absurd h hcond

/-- C3 witness: the theorem at the 3x3 masks `A` with foreground only at
`(1,1)` (flat index 4) and `B` with foreground only at `(2,2)` (flat index 8);
the combined prompt contains both points. -/
theorem c3_gap_two_union_prompt_witness :
    ((2 : Int) - 0 = 2 ∧ ¬ ((0 : Int) = 5 ∧ false = true) ∧
      ¬ ((2 : Int) = 6 ∧ false = true) ∧
      (((fun z : Int => if z = 0 then ([0, 0, 0, 0, 1, 0, 0, 0, 0] : Mask)
          else if z = 2 then ([0, 0, 0, 0, 0, 0, 0, 0, 1] : Mask)
          else []) : Int → Mask) 0).length =
        (((fun z : Int => if z = 0 then ([0, 0, 0, 0, 1, 0, 0, 0, 0] : Mask)
          else if z = 2 then ([0, 0, 0, 0, 0, 0, 0, 0, 1] : Mask)
          else []) : Int → Mask) 2).length) ∧
    (interpPair (fun p _ _ _ => p) true true 5 6 false false ((0 : Int), (2 : Int))
        ⟨(fun z : Int => if z = 0 then ([0, 0, 0, 0, 1, 0, 0, 0, 0] : Mask)
          else if z = 2 then ([0, 0, 0, 0, 0, 0, 0, 0, 1] : Mask)
          else []), []⟩ =
      ⟨upd (fun z : Int => if z = 0 then ([0, 0, 0, 0, 1, 0, 0, 0, 0] : Mask)
          else if z = 2 then ([0, 0, 0, 0, 0, 0, 0, 0, 1] : Mask)
          else []) (0 + 1)
          ((fun p _ _ _ => p)
            (maskOr ([0, 0, 0, 0, 1, 0, 0, 0, 0] : Mask) ([0, 0, 0, 0, 0, 0, 0, 0, 1] : Mask))
            (0 + 1) true true),
        [] ++ [SegEv.ucall (0 + 1)
            (maskOr ([0, 0, 0, 0, 1, 0, 0, 0, 0] : Mask) ([0, 0, 0, 0, 0, 0, 0, 0, 1] : Mask)),
          SegEv.write (0 + 1)
            ((fun p _ _ _ => p)
              (maskOr ([0, 0, 0, 0, 1, 0, 0, 0, 0] : Mask) ([0, 0, 0, 0, 0, 0, 0, 0, 1] : Mask))
              (0 + 1) true true),
          SegEv.prog]⟩) ∧
    (maskOr ([0, 0, 0, 0, 1, 0, 0, 0, 0] : Mask) ([0, 0, 0, 0, 0, 0, 0, 0, 1] : Mask)).getD 4 0 = 1 ∧
    (maskOr ([0, 0, 0, 0, 1, 0, 0, 0, 0] : Mask) ([0, 0, 0, 0, 0, 0, 0, 0, 1] : Mask)).getD 8 0 = 1 :=
  ⟨⟨by decide, by decide, by decide, by decide⟩,
    (c3_gap_two_union_prompt (fun p _ _ _ => p) true true 5 6 0 2 false false
      ⟨(fun z : Int => if z = 0 then ([0, 0, 0, 0, 1, 0, 0, 0, 0] : Mask)
          else if z = 2 then ([0, 0, 0, 0, 0, 0, 0, 0, 1] : Mask)
          else []), []⟩ (by decide) (by decide) (by decide) (by decide)).1,
    by decide, by decide⟩

/-- C9: a propagation call with an empty set of annotated slices (and a valid
projection mode, which is asserted first) fails with the `EmptyAnnotationSet`
error, raised to the caller with no recovery and no retry. -/
theorem c9_empty_annotation_set (orc : Oracle) (zDim : Nat) (sl su : Bool)
    (thr : ℚ) (projection : String) (seg0 : Int → Mask)
    (hproj : projection = "mask" ∨ projection = "bounding_box") :
    segmentVolume orc zDim [] sl su thr projection seg0 =
      Except.error SegErr.emptyAnnotationSet := by
  unfold segmentVolume
  rw [if_pos hproj]
  rfl

/-- C9 witness: the theorem at a concrete empty propagation call. -/
theorem c9_empty_annotation_set_witness :
    ("mask" = "mask" ∨ "mask" = "bounding_box") ∧
    segmentVolume (fun p _ _ _ => p) 5 [] false false 0 "mask" (fun _ => []) =
      Except.error SegErr.emptyAnnotationSet :=
  ⟨Or.inl rfl,
    c9_empty_annotation_set (fun p _ _ _ => p) 5 false false 0 "mask" (fun _ => [])
      (Or.inl rfl)⟩

end MicroSam

namespace MicroSam

/-- C1 witness: the parity theorem at the concrete even-gap pair `(0, 4)` with an
identity oracle and an all-empty initial volume. -/
theorem c1_parity_interpolation_witness :
    (2 < (4 : Int) - 0 ∧ ¬ ((0 : Int) = 0 ∧ false = true) ∧
      ¬ ((4 : Int) = 7 ∧ false = true)) ∧
    (∃ twF twB twM sg,
      interpPair (fun p _ _ _ => p) true true 0 7 false false ((0 : Int), (4 : Int))
          ⟨fun _ => [], []⟩ =
        ⟨sg, (⟨fun _ => [], []⟩ : EngSt).tr ++ (twF ++ twB ++ twM)⟩ ∧
      (∀ z, writeCount (twF ++ twB ++ twM) z = if 0 < z ∧ z < 4 then 1 else 0) ∧
      (∀ z, (z ≤ 0 ∨ 4 ≤ z) → sg z = (⟨fun _ => [], []⟩ : EngSt).seg z) ∧
      (∀ z, writeCount twB z = if ((0 : Int) + 4) / 2 < z ∧ z < 4 then 1 else 0) ∧
      (((4 : Int) - 0) % 2 = 0 →
        (∀ z, writeCount twF z = if 0 < z ∧ z < ((0 : Int) + 4) / 2 then 1 else 0) ∧
        ucallCount twF = 0 ∧ ucallCount twB = 0 ∧
        twM = [SegEv.ucall (((0 : Int) + 4) / 2)
            (maskOr (sg (((0 : Int) + 4) / 2 - 1)) (sg (((0 : Int) + 4) / 2 + 1))),
          SegEv.write (((0 : Int) + 4) / 2)
            ((fun p _ _ _ => p)
              (maskOr (sg (((0 : Int) + 4) / 2 - 1)) (sg (((0 : Int) + 4) / 2 + 1)))
              (((0 : Int) + 4) / 2) true true),
          SegEv.prog]) ∧
      (((4 : Int) - 0) % 2 = 1 →
        twM = [] ∧ ucallCount (twF ++ twB) = 0 ∧
        (∀ z, writeCount twF z = if 0 < z ∧ z ≤ ((0 : Int) + 4) / 2 then 1 else 0))) :=
  ⟨⟨by decide, by decide, by decide⟩,
    c1_parity_interpolation (fun p _ _ _ => p) true true 0 7 0 4 false false
      ⟨fun _ => [], []⟩ (by decide) (by decide) (by decide)⟩

end MicroSam

namespace MicroSam

/-- Characterization of the `segment_range` loop with an IOU threshold `t`,
increment `+1` and a stopping criterion equivalent to reaching the bound `C`:
starting at `a` with `C = a + n` (`n ≥ 1`), the walk writes some prefix
`a, …, a+K-1` of the range (`K ≤ n`), always performs its first oracle call at
`a` with the committed neighbour `seg[a-1]` as prompt, prompts every call at `z`
with the finally stored mask at `z - 1`, either writes the new mask (when its
IOU against the prompt is not below `t`) or stops at the first slice whose IOU
drops below `t` (`K < n` exactly when such a stop happened, at slice `a + K`,
whose mask and all later slices stay untouched), increments the progress bar
once per write except for the final write when the walk runs to its bound, and
performs no union call. -/
theorem segRangeLoop_fwd_thr (orc : Oracle) (um ub : Bool) (t : ℚ) (B C : Int)
    (stop : Int → Int → Bool) (hstop : ∀ z, stop z B = decide (C ≤ z)) :
    ∀ (n : Nat) (a : Int) (st : EngSt) (fuel : Nat), C = a + n → 1 ≤ n → n ≤ fuel →
      ∃ (K : Nat) (tw : List SegEv) (sg : Int → Mask),
        segRangeLoop orc um ub (some t) B 1 stop fuel a st = ⟨sg, st.tr ++ tw⟩ ∧
        K ≤ n ∧
        (∃ tl, tw = SegEv.wcall a (st.seg (a - 1)) :: tl) ∧
        (∀ z, writeCount tw z = if a ≤ z ∧ z < a + K then 1 else 0) ∧
        ucallCount tw = 0 ∧
        writeTotal tw = K ∧
        progCount tw = (if K < n then K else K - 1) ∧
        (∀ z, (z < a ∨ a + K ≤ z) → sg z = st.seg z) ∧
        (∀ z p, SegEv.wcall z p ∈ tw → a ≤ z ∧ z < C ∧ p = sg (z - 1) ∧
          ((computeIou p (orc p z um ub) < t ∧ SegEv.iouStop z p ∈ tw) ∨
            (¬ computeIou p (orc p z um ub) < t ∧
              SegEv.write z (orc p z um ub) ∈ tw))) ∧
        (∀ z p, SegEv.iouStop z p ∈ tw → z = a + K ∧ K < n ∧
          computeIou p (orc p z um ub) < t) ∧
        (K < n → ∃ p, SegEv.iouStop (a + K) p ∈ tw) := by
  intro n
  induction n with
  | zero => intro a st fuel _ h1 _; omega
  | succ m ih =>
    intro a st fuel hC _ hfuel
    obtain ⟨f, rfl⟩ : ∃ f, fuel = f + 1 := ⟨fuel - 1, by omega⟩
    have hunfold : segRangeLoop orc um ub (some t) B 1 stop (f+1) a st =
        (if decide (computeIou (st.seg (a-1)) (orc (st.seg (a-1)) a um ub) < t) = true then
          (⟨st.seg, (st.tr ++ [SegEv.wcall a (st.seg (a-1))]) ++
            [SegEv.iouStop a (st.seg (a-1))]⟩ : EngSt)
        else if stop (a+1) B = true then
          (⟨upd st.seg a (orc (st.seg (a-1)) a um ub),
            (st.tr ++ [SegEv.wcall a (st.seg (a-1))]) ++
              [SegEv.write a (orc (st.seg (a-1)) a um ub)]⟩ : EngSt)
        else
          segRangeLoop orc um ub (some t) B 1 stop f (a+1)
            ⟨upd st.seg a (orc (st.seg (a-1)) a um ub),
              ((st.tr ++ [SegEv.wcall a (st.seg (a-1))]) ++
                [SegEv.write a (orc (st.seg (a-1)) a um ub)]) ++ [SegEv.prog]⟩) := rfl
    by_cases hiou : computeIou (st.seg (a-1)) (orc (st.seg (a-1)) a um ub) < t
    · -- immediate IOU stop before writing
      rw [hunfold, if_pos (by simp [hiou])]
      refine ⟨0, [SegEv.wcall a (st.seg (a-1)), SegEv.iouStop a (st.seg (a-1))], st.seg,
        by simp, by omega, ⟨[SegEv.iouStop a (st.seg (a-1))], rfl⟩, ?_, rfl, rfl, ?_,
        fun z _ => rfl, ?_, ?_, ?_⟩
      · intro z
        rw [if_neg (by omega)]
        rfl
      · rw [if_pos (by omega)]
        rfl
      · intro z p hmem
        simp only [List.mem_cons, List.mem_singleton] at hmem
        rcases hmem with h | h | h
        · cases h
          exact ⟨le_refl a, by omega, rfl, Or.inl ⟨hiou, by simp⟩⟩
        · cases h
        · cases h
      · intro z p hmem
        simp only [List.mem_cons, List.mem_singleton] at hmem
        rcases hmem with h | h | h
        · cases h
        · cases h
          exact ⟨by omega, by omega, hiou⟩
        · cases h
      · intro _
        exact ⟨st.seg (a - 1), by simp⟩
    · rw [hunfold, if_neg (by simp [hiou])]
      rcases Nat.eq_zero_or_pos m with hm | hm
      · -- last slice of the range: write and stop
        subst hm
        have hd : stop (a+1) B = true := by
          rw [hstop]
          simp only [decide_eq_true_eq]
          omega
        rw [if_pos hd]
        refine ⟨1, [SegEv.wcall a (st.seg (a-1)),
          SegEv.write a (orc (st.seg (a-1)) a um ub)],
          upd st.seg a (orc (st.seg (a-1)) a um ub),
          by simp, by omega,
          ⟨[SegEv.write a (orc (st.seg (a-1)) a um ub)], rfl⟩, ?_, rfl, rfl, ?_, ?_, ?_, ?_, ?_⟩
        · intro z
          by_cases hz : a = z
          · subst hz
            rw [if_pos (by omega)]
            simp [writeCount, List.countP_cons]
          · rw [if_neg (by omega)]
            simp [writeCount, List.countP_cons, hz]
        · rw [if_neg (by omega)]
          rfl
        · intro z hz
          have hza : z ≠ a := by omega
          simp [upd, hza]
        · intro z p hmem
          simp only [List.mem_cons, List.mem_singleton] at hmem
          rcases hmem with h | h | h
          · cases h
            refine ⟨le_refl a, by omega, ?_, Or.inr ⟨hiou, by simp⟩⟩
            have hne : ¬ (a - 1 = a) := by omega
            simp [upd, hne]
          · cases h
          · cases h
        · intro z p hmem
          simp only [List.mem_cons, List.mem_singleton] at hmem
          rcases hmem with h | h | h
          · cases h
          · cases h
          · cases h
        · intro hlt
          omega
      · -- write, step forward, recurse
        have hd : stop (a+1) B = false := by
          rw [hstop]
          simp only [decide_eq_false_iff_not]
          omega
        rw [if_neg (by rw [hd]; exact Bool.false_ne_true)]
        obtain ⟨K2, tw2, sg, heq, hK2, hhead, hw, hu, hwt, hprog, hseg, hcall, hstop2, hlast⟩ :=
          ih (a+1)
          ⟨upd st.seg a (orc (st.seg (a-1)) a um ub),
            ((st.tr ++ [SegEv.wcall a (st.seg (a-1))]) ++
              [SegEv.write a (orc (st.seg (a-1)) a um ub)]) ++ [SegEv.prog]⟩
          f (by omega) hm (by omega)
        refine ⟨K2 + 1, [SegEv.wcall a (st.seg (a-1)),
          SegEv.write a (orc (st.seg (a-1)) a um ub), SegEv.prog] ++ tw2, sg,
          ?_, by omega, ⟨[SegEv.write a (orc (st.seg (a-1)) a um ub), SegEv.prog] ++ tw2, rfl⟩,
          ?_, ?_, ?_, ?_, ?_, ?_, ?_, ?_⟩
        · rw [heq]
          congr 1
          simp
        · intro z
          rw [writeCount_append, hw z]
          by_cases hz : a = z
          · subst hz
            rw [if_neg (by omega), if_pos (by push_cast; omega)]
            simp [writeCount, List.countP_cons]
          · by_cases h5 : a + 1 ≤ z ∧ z < a + 1 + (K2 : Int)
            · rw [if_pos h5, if_pos (by push_cast at h5 ⊢; omega)]
              simp [writeCount, List.countP_cons, hz]
            · rw [if_neg h5, if_neg (by push_cast at h5 ⊢; omega)]
              simp [writeCount, List.countP_cons, hz]
        · rw [ucallCount_append, hu]
          rfl
        · rw [writeTotal_append, hwt]
          have hh : writeTotal [SegEv.wcall a (st.seg (a-1)),
              SegEv.write a (orc (st.seg (a-1)) a um ub), SegEv.prog] = 1 := rfl
          omega
        · rw [progCount_append, hprog]
          have h1p : progCount [SegEv.wcall a (st.seg (a-1)),
              SegEv.write a (orc (st.seg (a-1)) a um ub), SegEv.prog] = 1 := rfl
          rw [h1p]
          by_cases hK2m : K2 < m
          · rw [if_pos hK2m, if_pos (by omega)]
            omega
          · rw [if_neg hK2m, if_neg (by omega)]
            omega
        · intro z hz
          rw [hseg z (by push_cast at hz ⊢; omega)]
          have hza : z ≠ a := by omega
          simp [upd, hza]
        · intro z p hmem
          rw [List.mem_append] at hmem
          rcases hmem with h | h
          · simp only [List.mem_cons, List.mem_singleton] at h
            rcases h with h | h | h | h
            · cases h
              refine ⟨le_refl a, by omega, ?_, Or.inr ⟨hiou, ?_⟩⟩
              · rw [hseg (a - 1) (by omega)]
                have hne : ¬ (a - 1 = a) := by omega
                simp [upd, hne]
              · rw [List.mem_append]
                left
                simp
            · cases h
            · cases h
            · cases h
          · obtain ⟨hz1, hz2, hp, hdich⟩ := hcall z p h
            refine ⟨by omega, by omega, hp, ?_⟩
            rcases hdich with ⟨hblow, hmem2⟩ | ⟨hok, hmem2⟩
            · exact Or.inl ⟨hblow, by rw [List.mem_append]; right; exact hmem2⟩
            · exact Or.inr ⟨hok, by rw [List.mem_append]; right; exact hmem2⟩
        · intro z p hmem
          rw [List.mem_append] at hmem
          rcases hmem with h | h
          · simp only [List.mem_cons, List.mem_singleton] at h
            rcases h with h | h | h | h
            · cases h
            · cases h
            · cases h
            · cases h
          · obtain ⟨hz, hK2m, hblow⟩ := hstop2 z p h
            refine ⟨by push_cast at hz ⊢; omega, by omega, hblow⟩
        · intro hlt
          obtain ⟨p, hp⟩ := hlast (by omega)
          refine ⟨p, ?_⟩
          have hidx : a + ((K2 : Int) + 1) = a + 1 + (K2 : Int) := by omega
          rw [List.mem_append]
          right
          have : a + ((↑(K2 + 1) : Int)) = a + 1 + (K2 : Int) := by push_cast; omega
          rw [this]
          exact hp

end MicroSam

namespace MicroSam

/-- Mirror of `segRangeLoop_fwd_thr` for increment `-1`: the downward walk with
an IOU threshold starting at `a` with `a = C + n` writes a prefix
`a, a-1, …, a-K+1`, prompts every call at `z` with the finally stored mask at
`z + 1`, stops early exactly when an IOU drops below the threshold (at slice
`a - K`, left unwritten together with everything below it), and counts progress
one behind the writes unless it was stopped by the threshold. -/
theorem segRangeLoop_bwd_thr (orc : Oracle) (um ub : Bool) (t : ℚ) (B C : Int)
    (stop : Int → Int → Bool) (hstop : ∀ z, stop z B = decide (z ≤ C)) :
    ∀ (n : Nat) (a : Int) (st : EngSt) (fuel : Nat), a = C + n → 1 ≤ n → n ≤ fuel →
      ∃ (K : Nat) (tw : List SegEv) (sg : Int → Mask),
        segRangeLoop orc um ub (some t) B (-1) stop fuel a st = ⟨sg, st.tr ++ tw⟩ ∧
        K ≤ n ∧
        (∃ tl, tw = SegEv.wcall a (st.seg (a - (-1))) :: tl) ∧
        (∀ z, writeCount tw z = if a - K < z ∧ z ≤ a then 1 else 0) ∧
        ucallCount tw = 0 ∧
        writeTotal tw = K ∧
        progCount tw = (if K < n then K else K - 1) ∧
        (∀ z, (z ≤ a - K ∨ a < z) → sg z = st.seg z) ∧
        (∀ z p, SegEv.wcall z p ∈ tw → z ≤ a ∧ C < z ∧ p = sg (z + 1) ∧
          ((computeIou p (orc p z um ub) < t ∧ SegEv.iouStop z p ∈ tw) ∨
            (¬ computeIou p (orc p z um ub) < t ∧
              SegEv.write z (orc p z um ub) ∈ tw))) ∧
        (∀ z p, SegEv.iouStop z p ∈ tw → z = a - K ∧ K < n ∧
          computeIou p (orc p z um ub) < t) ∧
        (K < n → ∃ p, SegEv.iouStop (a - K) p ∈ tw) := by
  intro n
  induction n with
  | zero => intro a st fuel _ h1 _; omega
  | succ m ih =>
    intro a st fuel hC _ hfuel
    obtain ⟨f, rfl⟩ : ∃ f, fuel = f + 1 := ⟨fuel - 1, by omega⟩
    have hunfold : segRangeLoop orc um ub (some t) B (-1) stop (f+1) a st =
        (if decide (computeIou (st.seg (a - (-1)))
            (orc (st.seg (a - (-1))) a um ub) < t) = true then
          (⟨st.seg, (st.tr ++ [SegEv.wcall a (st.seg (a - (-1)))]) ++
            [SegEv.iouStop a (st.seg (a - (-1)))]⟩ : EngSt)
        else if stop (a + (-1)) B = true then
          (⟨upd st.seg a (orc (st.seg (a - (-1))) a um ub),
            (st.tr ++ [SegEv.wcall a (st.seg (a - (-1)))]) ++
              [SegEv.write a (orc (st.seg (a - (-1))) a um ub)]⟩ : EngSt)
        else
          segRangeLoop orc um ub (some t) B (-1) stop f (a + (-1))
            ⟨upd st.seg a (orc (st.seg (a - (-1))) a um ub),
              ((st.tr ++ [SegEv.wcall a (st.seg (a - (-1)))]) ++
                [SegEv.write a (orc (st.seg (a - (-1))) a um ub)]) ++ [SegEv.prog]⟩) := rfl
    by_cases hiou : computeIou (st.seg (a + 1)) (orc (st.seg (a + 1)) a um ub) < t
    · rw [hunfold, if_pos (by simp [hiou])]
      refine ⟨0, [SegEv.wcall a (st.seg (a - (-1))), SegEv.iouStop a (st.seg (a - (-1)))],
        st.seg, by simp, by omega, ⟨[SegEv.iouStop a (st.seg (a - (-1)))], rfl⟩, ?_, rfl, rfl,
        ?_, fun z _ => rfl, ?_, ?_, ?_⟩
      · intro z
        rw [if_neg (by omega)]
        rfl
      · rw [if_pos (by omega)]
        rfl
      · intro z p hmem
        simp only [List.mem_cons, List.mem_singleton] at hmem
        rcases hmem with h | h | h
        · cases h
          exact ⟨le_refl a, by omega, rfl, Or.inl ⟨hiou, by simp⟩⟩
        · cases h
        · cases h
      · intro z p hmem
        simp only [List.mem_cons, List.mem_singleton] at hmem
        rcases hmem with h | h | h
        · cases h
        · cases h
          exact ⟨by omega, by omega, hiou⟩
        · cases h
      · intro _
        exact ⟨st.seg (a - (-1)), by simp⟩
    · rw [hunfold, if_neg (by simp [hiou])]
      rcases Nat.eq_zero_or_pos m with hm | hm
      · subst hm
        have hd : stop (a + (-1)) B = true := by
          rw [hstop]
          simp only [decide_eq_true_eq]
          omega
        rw [if_pos hd]
        refine ⟨1, [SegEv.wcall a (st.seg (a - (-1))),
          SegEv.write a (orc (st.seg (a - (-1))) a um ub)],
          upd st.seg a (orc (st.seg (a - (-1))) a um ub),
          by simp, by omega,
          ⟨[SegEv.write a (orc (st.seg (a - (-1))) a um ub)], rfl⟩, ?_, rfl, rfl, ?_, ?_, ?_, ?_, ?_⟩
        · intro z
          by_cases hz : a = z
          · subst hz
            rw [if_pos (by omega)]
            simp [writeCount, List.countP_cons]
          · rw [if_neg (by omega)]
            simp [writeCount, List.countP_cons, hz]
        · rw [if_neg (by omega)]
          rfl
        · intro z hz
          have hza : z ≠ a := by omega
          simp [upd, hza]
        · intro z p hmem
          simp only [List.mem_cons, List.mem_singleton] at hmem
          rcases hmem with h | h | h
          · cases h
            refine ⟨le_refl a, by omega, ?_, Or.inr ⟨hiou, by simp⟩⟩
            have hne : ¬ (a - (-1) = a) := by omega
            simp [upd, hne]
          · cases h
          · cases h
        · intro z p hmem
          simp only [List.mem_cons, List.mem_singleton] at hmem
          rcases hmem with h | h | h
          · cases h
          · cases h
          · cases h
        · intro hlt
          omega
      · have hd : stop (a + (-1)) B = false := by
          rw [hstop]
          simp only [decide_eq_false_iff_not]
          omega
        rw [if_neg (by rw [hd]; exact Bool.false_ne_true)]
        obtain ⟨K2, tw2, sg, heq, hK2, hhead, hw, hu, hwt, hprog, hseg, hcall, hstop2, hlast⟩ :=
          ih (a + (-1))
          ⟨upd st.seg a (orc (st.seg (a - (-1))) a um ub),
            ((st.tr ++ [SegEv.wcall a (st.seg (a - (-1)))]) ++
              [SegEv.write a (orc (st.seg (a - (-1))) a um ub)]) ++ [SegEv.prog]⟩
          f (by omega) hm (by omega)
        refine ⟨K2 + 1, [SegEv.wcall a (st.seg (a - (-1))),
          SegEv.write a (orc (st.seg (a - (-1))) a um ub), SegEv.prog] ++ tw2, sg,
          ?_, by omega,
          ⟨[SegEv.write a (orc (st.seg (a - (-1))) a um ub), SegEv.prog] ++ tw2, rfl⟩,
          ?_, ?_, ?_, ?_, ?_, ?_, ?_, ?_⟩
        · rw [heq]
          congr 1
          simp
        · intro z
          rw [writeCount_append, hw z]
          by_cases hz : a = z
          · subst hz
            rw [if_neg (by omega), if_pos (by push_cast; omega)]
            simp [writeCount, List.countP_cons]
          · by_cases h5 : a + (-1) - (K2 : Int) < z ∧ z ≤ a + (-1)
            · rw [if_pos h5, if_pos (by push_cast at h5 ⊢; omega)]
              simp [writeCount, List.countP_cons, hz]
            · rw [if_neg h5, if_neg (by push_cast at h5 ⊢; omega)]
              simp [writeCount, List.countP_cons, hz]
        · rw [ucallCount_append, hu]
          rfl
        · rw [writeTotal_append, hwt]
          have hh : writeTotal [SegEv.wcall a (st.seg (a - (-1))),
              SegEv.write a (orc (st.seg (a - (-1))) a um ub), SegEv.prog] = 1 := rfl
          omega
        · rw [progCount_append, hprog]
          have h1p : progCount [SegEv.wcall a (st.seg (a - (-1))),
              SegEv.write a (orc (st.seg (a - (-1))) a um ub), SegEv.prog] = 1 := rfl
          rw [h1p]
          by_cases hK2m : K2 < m
          · rw [if_pos hK2m, if_pos (by omega)]
            omega
          · rw [if_neg hK2m, if_neg (by omega)]
            omega
        · intro z hz
          rw [hseg z (by push_cast at hz ⊢; omega)]
          have hza : z ≠ a := by omega
          simp [upd, hza]
        · intro z p hmem
          rw [List.mem_append] at hmem
          rcases hmem with h | h
          · simp only [List.mem_cons, List.mem_singleton] at h
            rcases h with h | h | h | h
            · cases h
              refine ⟨le_refl a, by omega, ?_, Or.inr ⟨hiou, ?_⟩⟩
              · rw [hseg (a + 1) (by omega)]
                have hne : ¬ (a + 1 = a) := by omega
                simp [upd, hne]
              · rw [List.mem_append]
                left
                simp
            · cases h
            · cases h
            · cases h
          · obtain ⟨hz1, hz2, hp, hdich⟩ := hcall z p h
            refine ⟨by omega, by omega, hp, ?_⟩
            rcases hdich with ⟨hblow, hmem2⟩ | ⟨hok, hmem2⟩
            · exact Or.inl ⟨hblow, by rw [List.mem_append]; right; exact hmem2⟩
            · exact Or.inr ⟨hok, by rw [List.mem_append]; right; exact hmem2⟩
        · intro z p hmem
          rw [List.mem_append] at hmem
          rcases hmem with h | h
          · simp only [List.mem_cons, List.mem_singleton] at h
            rcases h with h | h | h | h
            · cases h
            · cases h
            · cases h
            · cases h
          · obtain ⟨hz, hK2m, hblow⟩ := hstop2 z p h
            refine ⟨by push_cast at hz ⊢; omega, by omega, hblow⟩
        · intro hlt
          obtain ⟨p, hp⟩ := hlast (by omega)
          refine ⟨p, ?_⟩
          rw [List.mem_append]
          right
          have : a - ((↑(K2 + 1) : Int)) = a + (-1) - (K2 : Int) := by push_cast; omega
          rw [this]
          exact hp

end MicroSam

namespace MicroSam

/-- Frame property of one interpolation pair: whatever branch runs, it only
appends to the trace, never performs an IOU stop, and neither writes, prompts
from a walk call, nor modifies any slice outside the open interval `(a, b)`. -/
theorem interpPair_frame (orc : Oracle) (um ub : Bool) (z0 z1 a b : Int)
    (sl su : Bool) (st : EngSt) (hab : a < b) :
    ∃ (ti : List SegEv) (sg : Int → Mask),
      interpPair orc um ub z0 z1 sl su (a, b) st = ⟨sg, st.tr ++ ti⟩ ∧
      iouStopCount ti = 0 ∧
      (∀ z, ¬ (a < z ∧ z < b) →
        writeCount ti z = 0 ∧ wcallCount ti z = 0 ∧ sg z = st.seg z) := by
  by_cases h1 : b - a = 1
  · rw [interpPair_adjacent orc um ub z0 z1 a b sl su st h1]
    refine ⟨[], st.seg, by simp, rfl, fun z _ => ⟨rfl, rfl, rfl⟩⟩
  · by_cases hsl : a = z0 ∧ sl = true
    · rw [interpPair_stop_lower orc um ub z0 z1 a b sl su st h1 hsl]
      unfold segRange
      obtain ⟨tw, sg, heq, hw, hwc, hu, hi, hp, hseg⟩ := segRangeLoop_bwd_none orc um ub a a
        (fun x y => decide (x ≤ y)) (fun z => rfl) (b - 1 - a).toNat (b + (-1)) st
        ((a - b).natAbs + 1) (by omega) (by omega) (by omega)
      rw [heq]
      refine ⟨tw, sg, rfl, hi, ?_⟩
      intro z hz
      exact ⟨by rw [hw z, if_neg (by omega)], by rw [hwc z, if_neg (by omega)],
        hseg z (by omega)⟩
    · by_cases hsu : b = z1 ∧ su = true
      · rw [interpPair_stop_upper orc um ub z0 z1 a b sl su st h1 hsl hsu]
        unfold segRange
        obtain ⟨tw, sg, heq, hw, hwc, hu, hi, hp, hseg⟩ := segRangeLoop_fwd_none orc um ub b b
          (fun x y => decide (y ≤ x)) (fun z => rfl) (b - (a + 1)).toNat (a + 1) st
          ((b - a).natAbs + 1) (by omega) (by omega) (by omega)
        rw [heq]
        refine ⟨tw, sg, rfl, hi, ?_⟩
        intro z hz
        exact ⟨by rw [hw z, if_neg (by omega)], by rw [hwc z, if_neg (by omega)],
          hseg z (by omega)⟩
      · by_cases h2 : b - a = 2
        · rw [interpPair_two orc um ub z0 z1 a b sl su st h1 hsl hsu h2]
          refine ⟨[SegEv.ucall (a + 1) (maskOr (st.seg a) (st.seg b)),
            SegEv.write (a + 1) (orc (maskOr (st.seg a) (st.seg b)) (a + 1) um ub),
            SegEv.prog], upd st.seg (a + 1) (orc (maskOr (st.seg a) (st.seg b)) (a + 1) um ub),
            rfl, rfl, ?_⟩
          intro z hz
          have hza : ¬ ((a : Int) + 1 = z) := by omega
          have hzb : z ≠ a + 1 := by omega
          exact ⟨by simp [writeCount, List.countP_cons, hza], rfl, by simp [upd, hzb]⟩
        · rw [interpPair_general orc um ub z0 z1 a b sl su st h1 hsl hsu h2]
          rcases Int.emod_two_eq_zero_or_one (b - a) with hpar | hpar
          · have hm2 : 2 * ((a + b) / 2) = a + b := by omega
            simp only [hpar, if_pos]
            unfold segRange
            obtain ⟨twF, sg1, heqF, hwF, hwcF, huF, hiF, hpF, hsegF⟩ :=
              segRangeLoop_fwd_none orc um ub ((a + b) / 2) ((a + b) / 2)
                (fun x y => decide (y ≤ x)) (fun z => rfl)
                ((a + b) / 2 - (a + 1)).toNat (a + 1) st (((a + b) / 2 - a).natAbs + 1)
                (by omega) (by omega) (by omega)
            rw [heqF]
            obtain ⟨twB, sg2, heqB, hwB, hwcB, huB, hiB, hpB, hsegB⟩ :=
              segRangeLoop_bwd_none orc um ub ((a + b) / 2) ((a + b) / 2)
                (fun x y => decide (x ≤ y)) (fun z => rfl)
                ((b - 1) - (a + b) / 2).toNat (b + (-1)) ⟨sg1, st.tr ++ twF⟩
                (((a + b) / 2 - b).natAbs + 1) (by omega) (by omega) (by omega)
            rw [heqB]
            refine ⟨twF ++ twB ++ [SegEv.ucall ((a + b) / 2)
                (maskOr (sg2 ((a + b) / 2 - 1)) (sg2 ((a + b) / 2 + 1))),
              SegEv.write ((a + b) / 2)
                (orc (maskOr (sg2 ((a + b) / 2 - 1)) (sg2 ((a + b) / 2 + 1))) ((a + b) / 2) um ub),
              SegEv.prog],
              upd sg2 ((a + b) / 2)
                (orc (maskOr (sg2 ((a + b) / 2 - 1)) (sg2 ((a + b) / 2 + 1))) ((a + b) / 2) um ub),
              by simp [List.append_assoc], ?_, ?_⟩
            · rw [iouStopCount_append, iouStopCount_append, hiF, hiB]
              rfl
            · intro z hz
              refine ⟨?_, ?_, ?_⟩
              · rw [writeCount_append, writeCount_append, hwF z, hwB z,
                  if_neg (by omega), if_neg (by omega)]
                have hzm : ¬ ((a + b) / 2 = z) := by omega
                simp [writeCount, List.countP_cons, hzm]
              · rw [wcallCount_append, wcallCount_append, hwcF z, hwcB z,
                  if_neg (by omega), if_neg (by omega)]
                rfl
              · have hzm : ¬ (z = (a + b) / 2) := by omega
                rw [show upd sg2 ((a + b) / 2)
                    (orc (maskOr (sg2 ((a + b) / 2 - 1)) (sg2 ((a + b) / 2 + 1)))
                      ((a + b) / 2) um ub) z = sg2 z from by simp [upd, hzm]]
                rw [hsegB z (by omega)]
                exact hsegF z (by omega)
          · have hm2 : 2 * ((a + b) / 2) + 1 = a + b := by omega
            have hne0 : ¬ ((b - a) % 2 = 0) := by omega
            simp only [if_neg hne0]
            unfold segRange
            obtain ⟨twF, sg1, heqF, hwF, hwcF, huF, hiF, hpF, hsegF⟩ :=
              segRangeLoop_fwd_none orc um ub ((a + b) / 2) ((a + b) / 2 + 1)
                (fun x y => decide (y < x))
                (fun z => decide_eq_decide.mpr (by omega))
                ((a + b) / 2 + 1 - (a + 1)).toNat (a + 1) st (((a + b) / 2 - a).natAbs + 1)
                (by omega) (by omega) (by omega)
            rw [heqF]
            obtain ⟨twB, sg2, heqB, hwB, hwcB, huB, hiB, hpB, hsegB⟩ :=
              segRangeLoop_bwd_none orc um ub ((a + b) / 2) ((a + b) / 2)
                (fun x y => decide (x ≤ y)) (fun z => rfl)
                ((b - 1) - (a + b) / 2).toNat (b + (-1)) ⟨sg1, st.tr ++ twF⟩
                (((a + b) / 2 - b).natAbs + 1) (by omega) (by omega) (by omega)
            rw [heqB]
            refine ⟨twF ++ twB, sg2, by simp [List.append_assoc], ?_, ?_⟩
            · rw [iouStopCount_append, hiF, hiB]
            · intro z hz
              refine ⟨?_, ?_, ?_⟩
              · rw [writeCount_append, hwF z, hwB z, if_neg (by omega), if_neg (by omega)]
              · rw [wcallCount_append, hwcF z, hwcB z, if_neg (by omega), if_neg (by omega)]
              · rw [hsegB z (by omega)]
                exact hsegF z (by omega)

/-- Frame property of the whole interpolation loop over consecutive pairs. -/
theorem interpPhase_frame (orc : Oracle) (um ub : Bool) (z0 z1 : Int)
    (sl su : Bool) :
    ∀ (pairs : List (Int × Int)) (st : EngSt),
      (∀ pr ∈ pairs, pr.1 < pr.2) →
      ∃ (ti : List SegEv) (sg : Int → Mask),
        interpPhase orc um ub z0 z1 sl su pairs st = ⟨sg, st.tr ++ ti⟩ ∧
        iouStopCount ti = 0 ∧
        (∀ z, (∀ pr ∈ pairs, ¬ (pr.1 < z ∧ z < pr.2)) →
          writeCount ti z = 0 ∧ wcallCount ti z = 0 ∧ sg z = st.seg z) := by
  intro pairs
  induction pairs with
  | nil =>
    intro st _
    exact ⟨[], st.seg, by simp [interpPhase], rfl, fun z _ => ⟨rfl, rfl, rfl⟩⟩
  | cons pr rest ih =>
    intro st hlt
    have hpr : pr.1 < pr.2 := hlt pr (by simp)
    obtain ⟨a, b⟩ := pr
    obtain ⟨ti1, sg1, heq1, hi1, hfr1⟩ :=
      interpPair_frame orc um ub z0 z1 a b sl su st hpr
    have hstep : interpPhase orc um ub z0 z1 sl su ((a, b) :: rest) st =
        interpPhase orc um ub z0 z1 sl su rest
          (interpPair orc um ub z0 z1 sl su (a, b) st) := by
      simp [interpPhase]
    obtain ⟨ti2, sg, heq2, hi2, hfr2⟩ := ih ⟨sg1, st.tr ++ ti1⟩
      (fun q hq => hlt q (by simp [hq]))
    refine ⟨ti1 ++ ti2, sg, ?_, ?_, ?_⟩
    · rw [hstep, heq1, heq2]
      congr 1
      simp
    · rw [iouStopCount_append, hi1, hi2]
    · intro z hz
      obtain ⟨hw1, hc1, hs1⟩ := hfr1 z (hz (a, b) (by simp))
      obtain ⟨hw2, hc2, hs2⟩ := hfr2 z (fun q hq => hz q (by simp [hq]))
      refine ⟨?_, ?_, ?_⟩
      · rw [writeCount_append, hw1, hw2]
      · rw [wcallCount_append, hc1, hc2]
      · rw [hs2]
        exact hs1

theorem foldl_min_le (xs : List Int) :
    ∀ (x y : Int), y ∈ x :: xs → xs.foldl min x ≤ y := by
  induction xs with
  | nil =>
    intro x y hy
    simp at hy
    simp [hy]
  | cons c l ih =>
    intro x y hy
    rw [List.foldl_cons]
    have hmem : min x c ∈ min x c :: l := by simp
    have hbase : l.foldl min (min x c) ≤ min x c := ih (min x c) (min x c) hmem
    rcases List.mem_cons.mp hy with hy1 | hy2
    · have h1 := min_le_left x c
      omega
    · rcases List.mem_cons.mp hy2 with hy3 | hy4
      · have h2 := min_le_right x c
        omega
      · exact ih (min x c) y (by simp [hy4])

theorem le_foldl_max (xs : List Int) :
    ∀ (x y : Int), y ∈ x :: xs → y ≤ xs.foldl max x := by
  induction xs with
  | nil =>
    intro x y hy
    simp at hy
    simp [hy]
  | cons c l ih =>
    intro x y hy
    rw [List.foldl_cons]
    have hmem : max x c ∈ max x c :: l := by simp
    have hbase : max x c ≤ l.foldl max (max x c) := ih (max x c) (max x c) hmem
    rcases List.mem_cons.mp hy with hy1 | hy2
    · have h1 := le_max_left x c
      omega
    · rcases List.mem_cons.mp hy2 with hy3 | hy4
      · have h2 := le_max_right x c
        omega
      · exact ih (max x c) y (by simp [hy4])

theorem strictAsc_cons_iff (a b : Int) (r : List Int) :
    strictAsc (a :: b :: r) = true ↔ (a < b ∧ strictAsc (b :: r) = true) := by
  simp [strictAsc, Bool.and_eq_true, decide_eq_true_eq]

theorem strictAsc_head_le (xs : List Int) :
    ∀ (x : Int), strictAsc (x :: xs) = true → ∀ y ∈ x :: xs, x ≤ y := by
  induction xs with
  | nil =>
    intro x _ y hy
    simp at hy
    simp [hy]
  | cons c l ih =>
    intro x h y hy
    obtain ⟨hxc, hrest⟩ := (strictAsc_cons_iff x c l).mp h
    rcases List.mem_cons.mp hy with hy1 | hy2
    · simp [hy1]
    · have := ih c hrest y hy2
      omega

theorem strictAsc_zip_lt (l : List Int) (h : strictAsc l = true) :
    ∀ pr ∈ l.zip l.tail, pr.1 < pr.2 := by
  induction l with
  | nil => intro pr hpr; simp at hpr
  | cons a rest ih =>
    intro pr hpr
    cases rest with
    | nil => simp at hpr
    | cons b r =>
      obtain ⟨hab, hrest⟩ := (strictAsc_cons_iff a b r).mp h
      simp only [List.tail_cons, List.zip_cons_cons, List.mem_cons] at hpr
      rcases hpr with hpr1 | hpr2
      · simp [hpr1, hab]
      · exact ih hrest pr (by simpa using hpr2)

theorem zip_tail_mem (l : List Int) :
    ∀ pr ∈ l.zip l.tail, pr.1 ∈ l ∧ pr.2 ∈ l := by
  induction l with
  | nil => intro pr hpr; simp at hpr
  | cons a rest ih =>
    intro pr hpr
    cases rest with
    | nil => simp at hpr
    | cons b r =>
      simp only [List.tail_cons, List.zip_cons_cons, List.mem_cons] at hpr
      rcases hpr with hpr1 | hpr2
      · subst hpr1
        exact ⟨by simp, by simp⟩
      · obtain ⟨hm1, hm2⟩ := ih pr (by simpa using hpr2)
        exact ⟨by simp [hm1], by simp [hm2]⟩

theorem strictAsc_separation (l : List Int) (h : strictAsc l = true) :
    ∀ y ∈ l, ∀ pr ∈ l.zip l.tail, ¬ (pr.1 < y ∧ y < pr.2) := by
  induction l with
  | nil => intro y hy; simp at hy
  | cons a rest ih =>
    intro y hy pr hpr
    cases rest with
    | nil => simp at hpr
    | cons b r =>
      obtain ⟨hab, hrest⟩ := (strictAsc_cons_iff a b r).mp h
      simp only [List.tail_cons, List.zip_cons_cons, List.mem_cons] at hpr
      rcases hpr with hpr1 | hpr2
      · subst hpr1
        rcases List.mem_cons.mp hy with hy1 | hy2
        · omega
        · have hble := strictAsc_head_le r b hrest y hy2
          simp only
          omega
      · rcases List.mem_cons.mp hy with hy1 | hy2
        · subst hy1
          obtain ⟨hm1, _⟩ := zip_tail_mem (b :: r) pr (by simpa using hpr2)
          have := strictAsc_head_le r b hrest pr.1 hm1
          omega
        · exact ih hrest y hy2 pr (by simpa using hpr2)

end MicroSam

namespace MicroSam

/-- Unfolding of `_segment_volume` on a valid projection and a non-empty slice
list: the lower walk, the upper walk, then the in-between interpolation loop
when the annotated range is non-degenerate. -/
theorem segmentVolume_eq (orc : Oracle) (zDim : Nat) (slices : List Int)
    (sl su : Bool) (t : ℚ) (proj : String) (seg0 : Int → Mask) (z0 z1 : Int)
    (hproj : proj = "mask" ∨ proj = "bounding_box")
    (hz0 : npMin slices = some z0) (hz1 : npMax slices = some z1) :
    segmentVolume orc zDim slices sl su t proj seg0 =
      Except.ok
        (if z0 ≠ z1 then
          interpPhase orc (projFlags proj).1 (projFlags proj).2 z0 z1 sl su
            (slices.zip slices.tail)
            (upperPhase orc (projFlags proj).1 (projFlags proj).2 zDim z1 su t
              (lowerPhase orc (projFlags proj).1 (projFlags proj).2 z0 sl t ⟨seg0, []⟩))
        else
          upperPhase orc (projFlags proj).1 (projFlags proj).2 zDim z1 su t
            (lowerPhase orc (projFlags proj).1 (projFlags proj).2 z0 sl t ⟨seg0, []⟩)) := by
  unfold segmentVolume
  rw [if_pos hproj, hz0, hz1]

/-- The lower outward walk (`segment_range(z0, 0, -1, np.less, iou_threshold)`),
characterized: it starts by prompting slice `z0 - 1` from the annotated mask at
`z0`, writes a contiguous block `z0 - K, …, z0 - 1`, prompts every call at `z`
with the final mask at `z + 1`, stops early exactly when an IOU drops below the
threshold (leaving the slices at and below the stop point untouched), and makes
no union call. -/
theorem lowerPhase_spec (orc : Oracle) (um ub : Bool) (z0 : Int) (t : ℚ)
    (st : EngSt) (h0 : 0 < z0) :
    ∃ (K : Nat) (tl : List SegEv) (sg : Int → Mask),
      lowerPhase orc um ub z0 false t st = ⟨sg, st.tr ++ tl⟩ ∧
      K ≤ z0.toNat ∧
      (∃ rest, tl = SegEv.wcall (z0 - 1) (st.seg z0) :: rest) ∧
      (∀ z, writeCount tl z = if z0 - 1 - (K : Int) < z ∧ z ≤ z0 - 1 then 1 else 0) ∧
      ucallCount tl = 0 ∧
      writeTotal tl = K ∧
      progCount tl = (if K < z0.toNat then K else K - 1) ∧
      (∀ z, (z ≤ z0 - 1 - (K : Int) ∨ z0 - 1 < z) → sg z = st.seg z) ∧
      (∀ z p, SegEv.wcall z p ∈ tl → z ≤ z0 - 1 ∧ -1 < z ∧ p = sg (z + 1) ∧
        ((computeIou p (orc p z um ub) < t ∧ SegEv.iouStop z p ∈ tl) ∨
          (¬ computeIou p (orc p z um ub) < t ∧
            SegEv.write z (orc p z um ub) ∈ tl))) ∧
      (∀ z p, SegEv.iouStop z p ∈ tl → z = z0 - 1 - (K : Int) ∧ K < z0.toNat ∧
        computeIou p (orc p z um ub) < t) ∧
      (K < z0.toNat → ∃ p, SegEv.iouStop (z0 - 1 - (K : Int)) p ∈ tl) := by
  obtain ⟨K, tl, sg, heq, hK, hhead, hw, hu, hwt, hpc, hseg, hwc, hstp, hlast⟩ :=
    segRangeLoop_bwd_thr orc um ub t 0 (-1) (fun a b => decide (a < b))
      (fun z => decide_eq_decide.mpr (by omega)) z0.toNat (z0 - 1) st
      ((0 - z0).natAbs + 1) (by omega) (by omega) (by omega)
  rw [show z0 - 1 - (-1) = z0 from by omega] at hhead
  refine ⟨K, tl, sg, ?_, hK, hhead, hw, hu, hwt, hpc, hseg, hwc, hstp, hlast⟩
  unfold lowerPhase segRange
  rw [if_pos ⟨h0, rfl⟩, show z0 + (-1) = z0 - 1 from by omega]
  exact heq

/-- The upper outward walk
(`segment_range(z1, shape[0] - 1, 1, np.greater, iou_threshold)`), characterized
symmetrically to `lowerPhase_spec`: starts at `z1 + 1` prompted from the
annotated mask at `z1`, writes `z1 + 1, …, z1 + K`, prompts each call at `z`
with the final mask at `z - 1`, and stops early exactly on an IOU drop. -/
theorem upperPhase_spec (orc : Oracle) (um ub : Bool) (zDim : Nat) (z1 : Int)
    (t : ℚ) (st : EngSt) (h1 : z1 < (zDim : Int) - 1) :
    ∃ (K : Nat) (tu : List SegEv) (sg : Int → Mask),
      upperPhase orc um ub zDim z1 false t st = ⟨sg, st.tr ++ tu⟩ ∧
      K ≤ ((zDim : Int) - 1 - z1).toNat ∧
      (∃ rest, tu = SegEv.wcall (z1 + 1) (st.seg z1) :: rest) ∧
      (∀ z, writeCount tu z = if z1 + 1 ≤ z ∧ z < z1 + 1 + (K : Int) then 1 else 0) ∧
      ucallCount tu = 0 ∧
      writeTotal tu = K ∧
      progCount tu = (if K < ((zDim : Int) - 1 - z1).toNat then K else K - 1) ∧
      (∀ z, (z < z1 + 1 ∨ z1 + 1 + (K : Int) ≤ z) → sg z = st.seg z) ∧
      (∀ z p, SegEv.wcall z p ∈ tu → z1 + 1 ≤ z ∧ z < (zDim : Int) ∧ p = sg (z - 1) ∧
        ((computeIou p (orc p z um ub) < t ∧ SegEv.iouStop z p ∈ tu) ∨
          (¬ computeIou p (orc p z um ub) < t ∧
            SegEv.write z (orc p z um ub) ∈ tu))) ∧
      (∀ z p, SegEv.iouStop z p ∈ tu → z = z1 + 1 + (K : Int) ∧
        K < ((zDim : Int) - 1 - z1).toNat ∧ computeIou p (orc p z um ub) < t) ∧
      (K < ((zDim : Int) - 1 - z1).toNat →
        ∃ p, SegEv.iouStop (z1 + 1 + (K : Int)) p ∈ tu) := by
  obtain ⟨K, tu, sg, heq, hK, hhead, hw, hu, hwt, hpc, hseg, hwc, hstp, hlast⟩ :=
    segRangeLoop_fwd_thr orc um ub t ((zDim : Int) - 1) (zDim : Int)
      (fun a b => decide (b < a)) (fun z => decide_eq_decide.mpr (by omega))
      ((zDim : Int) - 1 - z1).toNat (z1 + 1) st (((zDim : Int) - 1 - z1).natAbs + 1)
      (by omega) (by omega) (by omega)
  rw [show z1 + 1 - 1 = z1 from by omega] at hhead
  refine ⟨K, tu, sg, ?_, hK, hhead, hw, hu, hwt, hpc, hseg, hwc, hstp, hlast⟩
  unfold upperPhase segRange
  rw [if_pos ⟨h1, rfl⟩]
  exact heq

end MicroSam

namespace MicroSam

/-- C10: for every propagation call with a non-empty, strictly ascending
annotated-slice set and a valid projection, `_segment_volume` never writes to
an annotated slice index, and the masks at all annotated indices are unchanged
when the call returns. -/
theorem c10_annotated_slices_never_written (orc : Oracle) (zDim : Nat)
    (sl su : Bool) (t : ℚ) (proj : String) (seg0 : Int → Mask)
    (x : Int) (xs : List Int)
    (hproj : proj = "mask" ∨ proj = "bounding_box")
    (hasc : strictAsc (x :: xs) = true) :
    ∃ (sg : Int → Mask) (tr : List SegEv),
      segmentVolume orc zDim (x :: xs) sl su t proj seg0 = Except.ok ⟨sg, tr⟩ ∧
      ∀ y ∈ x :: xs, writeCount tr y = 0 ∧ sg y = seg0 y := by
  have hmin : ∀ y ∈ x :: xs, xs.foldl min x ≤ y := fun y hy => foldl_min_le xs x y hy
  have hmax : ∀ y ∈ x :: xs, y ≤ xs.foldl max x := fun y hy => le_foldl_max xs x y hy
  have h01 : xs.foldl min x ≤ xs.foldl max x :=
    le_trans (hmin x (by simp)) (hmax x (by simp))
  have hmain := segmentVolume_eq orc zDim (x :: xs) sl su t proj seg0
    (xs.foldl min x) (xs.foldl max x) hproj rfl rfl
  have hA : ∃ (tl : List SegEv) (sgA : Int → Mask),
      lowerPhase orc (projFlags proj).1 (projFlags proj).2 (xs.foldl min x) sl t
        ⟨seg0, []⟩ = ⟨sgA, tl⟩ ∧
      ∀ z, xs.foldl min x - 1 < z → writeCount tl z = 0 ∧ sgA z = seg0 z := by
    by_cases hg : 0 < xs.foldl min x ∧ sl = false
    · obtain ⟨h0, hsl⟩ := hg
      obtain ⟨K, tl, sgA, heq, hK, hhead, hw, hu, hwt, hpc, hseg, hwc, hstp, hlast⟩ :=
        lowerPhase_spec orc (projFlags proj).1 (projFlags proj).2 (xs.foldl min x) t
          ⟨seg0, []⟩ h0
      rw [hsl]
      refine ⟨tl, sgA, by simpa using heq, fun z hz => ⟨?_, ?_⟩⟩
      · rw [hw z, if_neg (by omega)]
      · exact hseg z (Or.inr hz)
    · refine ⟨[], seg0, ?_, fun z _ => ⟨rfl, rfl⟩⟩
      unfold lowerPhase
      rw [if_neg hg]
  obtain ⟨tl, sgA, heqA, hfrA⟩ := hA
  have hB : ∃ (tu : List SegEv) (sgB : Int → Mask),
      upperPhase orc (projFlags proj).1 (projFlags proj).2 zDim (xs.foldl max x) su t
        ⟨sgA, tl⟩ = ⟨sgB, tl ++ tu⟩ ∧
      ∀ z, z < xs.foldl max x + 1 → writeCount tu z = 0 ∧ sgB z = sgA z := by
    by_cases hg : xs.foldl max x < (zDim : Int) - 1 ∧ su = false
    · obtain ⟨h1, hsu⟩ := hg
      obtain ⟨K, tu, sgB, heq, hK, hhead, hw, hu, hwt, hpc, hseg, hwc, hstp, hlast⟩ :=
        upperPhase_spec orc (projFlags proj).1 (projFlags proj).2 zDim
          (xs.foldl max x) t ⟨sgA, tl⟩ h1
      rw [hsu]
      refine ⟨tu, sgB, by simpa using heq, fun z hz => ⟨?_, ?_⟩⟩
      · rw [hw z, if_neg (by omega)]
      · exact hseg z (Or.inl hz)
    · refine ⟨[], sgA, ?_, fun z _ => ⟨rfl, rfl⟩⟩
      unfold upperPhase
      rw [if_neg hg]
      simp
  obtain ⟨tu, sgB, heqB, hfrB⟩ := hB
  have hI : ∃ (ti : List SegEv) (sgF : Int → Mask),
      (if xs.foldl min x ≠ xs.foldl max x then
        interpPhase orc (projFlags proj).1 (projFlags proj).2 (xs.foldl min x)
          (xs.foldl max x) sl su ((x :: xs).zip (x :: xs).tail) ⟨sgB, tl ++ tu⟩
      else (⟨sgB, tl ++ tu⟩ : EngSt)) = ⟨sgF, (tl ++ tu) ++ ti⟩ ∧
      ∀ y ∈ x :: xs, writeCount ti y = 0 ∧ sgF y = sgB y := by
    by_cases hne : xs.foldl min x ≠ xs.foldl max x
    · rw [if_pos hne]
      obtain ⟨ti, sgF, heq, hi, hfr⟩ := interpPhase_frame orc (projFlags proj).1
        (projFlags proj).2 (xs.foldl min x) (xs.foldl max x) sl su
        ((x :: xs).zip (x :: xs).tail) ⟨sgB, tl ++ tu⟩ (strictAsc_zip_lt _ hasc)
      refine ⟨ti, sgF, by simpa using heq, fun y hy => ?_⟩
      obtain ⟨hw, hc, hs⟩ := hfr y (fun pr hpr => strictAsc_separation _ hasc y hy pr hpr)
      exact ⟨hw, hs⟩
    · rw [if_neg hne]
      exact ⟨[], sgB, by simp, fun y _ => ⟨rfl, rfl⟩⟩
  obtain ⟨ti, sgF, heqI, hfrI⟩ := hI
  refine ⟨sgF, tl ++ tu ++ ti, ?_, fun y hy => ?_⟩
  · rw [hmain, heqA, heqB, heqI]
  · obtain ⟨hwI, hsI⟩ := hfrI y hy
    obtain ⟨hwA, hsA⟩ := hfrA y (by have := hmin y hy; omega)
    obtain ⟨hwB, hsB⟩ := hfrB y (by have := hmax y hy; omega)
    constructor
    · rw [writeCount_append, writeCount_append, hwA, hwB, hwI]
    · rw [hsI, hsB, hsA]

/-- Witness for C10 at a concrete volume with one annotated slice. -/
theorem c10_annotated_slices_never_written_witness :
    ∃ (sg : Int → Mask) (tr : List SegEv),
      segmentVolume (fun p _ _ _ => p) 3 [1] false false 0 "mask" (fun _ => [1]) =
        Except.ok ⟨sg, tr⟩ ∧
      ∀ y ∈ ([1] : List Int), writeCount tr y = 0 ∧ sg y = [1] :=
  c10_annotated_slices_never_written (fun p _ _ _ => p) 3 false false 0 "mask"
    (fun _ => [1]) 1 [] (Or.inl rfl) (by decide)

end MicroSam

namespace MicroSam

/-- C2: outward extension below the lowest annotated slice `z0` runs iff
`z0 > 0` and `stop_lower` is false (symmetrically above the highest annotated
slice `z1` iff `z1 < Z - 1` and `stop_upper` is false); each walk moves one
slice at a time away from the annotated range, prompting each step at `z` with
the finally stored neighbouring mask (`z + 1` below, `z - 1` above, starting
from the annotated mask itself), compares the IOU of each new mask against the
mask it was derived from, stops immediately at the first slice whose IOU drops
below the threshold with every remaining slice toward the volume boundary left
unwritten and unchanged, and the IOU stop never happens during the in-between
interpolation trace. -/
theorem c2_outward_extension_iou_stopping (orc : Oracle) (zDim : Nat)
    (sl su : Bool) (t : ℚ) (proj : String) (seg0 : Int → Mask)
    (x z0 z1 : Int) (xs : List Int)
    (hproj : proj = "mask" ∨ proj = "bounding_box")
    (hasc : strictAsc (x :: xs) = true)
    (hz0 : xs.foldl min x = z0) (hz1 : xs.foldl max x = z1) :
    ∃ (tl tu ti : List SegEv) (sg : Int → Mask),
      segmentVolume orc zDim (x :: xs) sl su t proj seg0 =
        Except.ok ⟨sg, tl ++ tu ++ ti⟩ ∧
      iouStopCount ti = 0 ∧
      (¬ (0 < z0 ∧ sl = false) → tl = []) ∧
      (¬ (z1 < (zDim : Int) - 1 ∧ su = false) → tu = []) ∧
      (0 < z0 ∧ sl = false →
        ∃ (K : Nat) (rest : List SegEv),
          tl = SegEv.wcall (z0 - 1) (seg0 z0) :: rest ∧
          (K : Int) ≤ z0 ∧
          (∀ z, writeCount tl z = if z0 - 1 - (K : Int) < z ∧ z ≤ z0 - 1 then 1 else 0) ∧
          (∀ z p, SegEv.wcall z p ∈ tl → 0 ≤ z ∧ z ≤ z0 - 1 ∧ p = sg (z + 1) ∧
            ((computeIou p (orc p z (projFlags proj).1 (projFlags proj).2) < t ∧
                SegEv.iouStop z p ∈ tl) ∨
              (¬ computeIou p (orc p z (projFlags proj).1 (projFlags proj).2) < t ∧
                SegEv.write z (orc p z (projFlags proj).1 (projFlags proj).2) ∈ tl))) ∧
          (∀ z p, SegEv.iouStop z p ∈ tl → z = z0 - 1 - (K : Int) ∧ (K : Int) < z0 ∧
            computeIou p (orc p z (projFlags proj).1 (projFlags proj).2) < t) ∧
          ((K : Int) < z0 → ∃ p, SegEv.iouStop (z0 - 1 - (K : Int)) p ∈ tl) ∧
          (∀ z, z ≤ z0 - 1 - (K : Int) →
            writeCount (tl ++ tu ++ ti) z = 0 ∧ sg z = seg0 z)) ∧
      (z1 < (zDim : Int) - 1 ∧ su = false →
        ∃ (K : Nat) (rest : List SegEv),
          tu = SegEv.wcall (z1 + 1) (seg0 z1) :: rest ∧
          z1 + 1 + (K : Int) ≤ (zDim : Int) ∧
          (∀ z, writeCount tu z = if z1 + 1 ≤ z ∧ z < z1 + 1 + (K : Int) then 1 else 0) ∧
          (∀ z p, SegEv.wcall z p ∈ tu → z1 + 1 ≤ z ∧ z < (zDim : Int) ∧
            p = sg (z - 1) ∧
            ((computeIou p (orc p z (projFlags proj).1 (projFlags proj).2) < t ∧
                SegEv.iouStop z p ∈ tu) ∨
              (¬ computeIou p (orc p z (projFlags proj).1 (projFlags proj).2) < t ∧
                SegEv.write z (orc p z (projFlags proj).1 (projFlags proj).2) ∈ tu))) ∧
          (∀ z p, SegEv.iouStop z p ∈ tu → z = z1 + 1 + (K : Int) ∧
            z1 + 1 + (K : Int) < (zDim : Int) ∧
            computeIou p (orc p z (projFlags proj).1 (projFlags proj).2) < t) ∧
          (z1 + 1 + (K : Int) < (zDim : Int) →
            ∃ p, SegEv.iouStop (z1 + 1 + (K : Int)) p ∈ tu) ∧
          (∀ z, z1 + 1 + (K : Int) ≤ z →
            writeCount (tl ++ tu ++ ti) z = 0 ∧ sg z = seg0 z)) := by
  have hmin : ∀ y ∈ x :: xs, z0 ≤ y := by
    intro y hy
    rw [← hz0]
    exact foldl_min_le xs x y hy
  have hmax : ∀ y ∈ x :: xs, y ≤ z1 := by
    intro y hy
    rw [← hz1]
    exact le_foldl_max xs x y hy
  have h01 : z0 ≤ z1 := le_trans (hmin x (by simp)) (hmax x (by simp))
  have hmz0 : npMin (x :: xs) = some z0 := by
    simp only [npMin]
    exact congrArg some hz0
  have hmz1 : npMax (x :: xs) = some z1 := by
    simp only [npMax]
    exact congrArg some hz1
  have hmain := segmentVolume_eq orc zDim (x :: xs) sl su t proj seg0 z0 z1
    hproj hmz0 hmz1
  have hA : ∃ (tl : List SegEv) (sgA : Int → Mask),
      lowerPhase orc (projFlags proj).1 (projFlags proj).2 z0 sl t ⟨seg0, []⟩ =
        ⟨sgA, tl⟩ ∧
      (∀ z, z0 - 1 < z → writeCount tl z = 0 ∧ sgA z = seg0 z) ∧
      (¬ (0 < z0 ∧ sl = false) → tl = []) ∧
      (0 < z0 ∧ sl = false →
        ∃ (K : Nat) (rest : List SegEv),
          tl = SegEv.wcall (z0 - 1) (seg0 z0) :: rest ∧
          (K : Int) ≤ z0 ∧
          (∀ z, writeCount tl z = if z0 - 1 - (K : Int) < z ∧ z ≤ z0 - 1 then 1 else 0) ∧
          (∀ z, z ≤ z0 - 1 - (K : Int) → writeCount tl z = 0 ∧ sgA z = seg0 z) ∧
          (∀ z p, SegEv.wcall z p ∈ tl → 0 ≤ z ∧ z ≤ z0 - 1 ∧ p = sgA (z + 1) ∧
            ((computeIou p (orc p z (projFlags proj).1 (projFlags proj).2) < t ∧
                SegEv.iouStop z p ∈ tl) ∨
              (¬ computeIou p (orc p z (projFlags proj).1 (projFlags proj).2) < t ∧
                SegEv.write z (orc p z (projFlags proj).1 (projFlags proj).2) ∈ tl))) ∧
          (∀ z p, SegEv.iouStop z p ∈ tl → z = z0 - 1 - (K : Int) ∧ (K : Int) < z0 ∧
            computeIou p (orc p z (projFlags proj).1 (projFlags proj).2) < t) ∧
          ((K : Int) < z0 → ∃ p, SegEv.iouStop (z0 - 1 - (K : Int)) p ∈ tl)) := by
    by_cases hg : 0 < z0 ∧ sl = false
    · obtain ⟨h0, hsl⟩ := hg
      obtain ⟨K, tl, sgA, heq, hK, ⟨rest, hhead⟩, hw, hu, hwt, hpc, hseg, hwc, hstp,
        hlast⟩ := lowerPhase_spec orc (projFlags proj).1 (projFlags proj).2 z0 t
          ⟨seg0, []⟩ h0
      rw [hsl]
      refine ⟨tl, sgA, by simpa using heq,
        fun z hz => ⟨by rw [hw z, if_neg (by omega)], hseg z (Or.inr hz)⟩,
        fun hng => absurd ⟨h0, rfl⟩ hng, fun _ => ?_⟩
      refine ⟨K, rest, by exact hhead, by omega, hw,
        fun z hz => ⟨by rw [hw z, if_neg (by omega)], hseg z (Or.inl hz)⟩,
        ?_, ?_, fun hKlt => hlast (by omega)⟩
      · intro z p hm
        obtain ⟨ha, hb, hp, hd⟩ := hwc z p hm
        exact ⟨by omega, ha, hp, hd⟩
      · intro z p hm
        obtain ⟨ha, hb, hc⟩ := hstp z p hm
        exact ⟨ha, by omega, hc⟩
    · refine ⟨[], seg0, ?_, fun z _ => ⟨rfl, rfl⟩, fun _ => rfl,
        fun hg2 => absurd hg2 hg⟩
      unfold lowerPhase
      rw [if_neg hg]
  obtain ⟨tl, sgA, heqA, hOutA, hEmpA, hDetA⟩ := hA
  have hB : ∃ (tu : List SegEv) (sgB : Int → Mask),
      upperPhase orc (projFlags proj).1 (projFlags proj).2 zDim z1 su t ⟨sgA, tl⟩ =
        ⟨sgB, tl ++ tu⟩ ∧
      (∀ z, z < z1 + 1 → writeCount tu z = 0 ∧ sgB z = sgA z) ∧
      (¬ (z1 < (zDim : Int) - 1 ∧ su = false) → tu = []) ∧
      (z1 < (zDim : Int) - 1 ∧ su = false →
        ∃ (K : Nat) (rest : List SegEv),
          tu = SegEv.wcall (z1 + 1) (sgA z1) :: rest ∧
          z1 + 1 + (K : Int) ≤ (zDim : Int) ∧
          (∀ z, writeCount tu z = if z1 + 1 ≤ z ∧ z < z1 + 1 + (K : Int) then 1 else 0) ∧
          (∀ z, z1 + 1 + (K : Int) ≤ z → writeCount tu z = 0 ∧ sgB z = sgA z) ∧
          (∀ z p, SegEv.wcall z p ∈ tu → z1 + 1 ≤ z ∧ z < (zDim : Int) ∧
            p = sgB (z - 1) ∧
            ((computeIou p (orc p z (projFlags proj).1 (projFlags proj).2) < t ∧
                SegEv.iouStop z p ∈ tu) ∨
              (¬ computeIou p (orc p z (projFlags proj).1 (projFlags proj).2) < t ∧
                SegEv.write z (orc p z (projFlags proj).1 (projFlags proj).2) ∈ tu))) ∧
          (∀ z p, SegEv.iouStop z p ∈ tu → z = z1 + 1 + (K : Int) ∧
            z1 + 1 + (K : Int) < (zDim : Int) ∧
            computeIou p (orc p z (projFlags proj).1 (projFlags proj).2) < t) ∧
          (z1 + 1 + (K : Int) < (zDim : Int) →
            ∃ p, SegEv.iouStop (z1 + 1 + (K : Int)) p ∈ tu)) := by
    by_cases hg : z1 < (zDim : Int) - 1 ∧ su = false
    · obtain ⟨h1, hsu⟩ := hg
      obtain ⟨K, tu, sgB, heq, hK, ⟨rest, hhead⟩, hw, hu, hwt, hpc, hseg, hwc, hstp,
        hlast⟩ := upperPhase_spec orc (projFlags proj).1 (projFlags proj).2 zDim z1 t
          ⟨sgA, tl⟩ h1
      rw [hsu]
      refine ⟨tu, sgB, by simpa using heq,
        fun z hz => ⟨by rw [hw z, if_neg (by omega)], hseg z (Or.inl hz)⟩,
        fun hng => absurd ⟨h1, rfl⟩ hng, fun _ => ?_⟩
      refine ⟨K, rest, by exact hhead, by omega, hw,
        fun z hz => ⟨by rw [hw z, if_neg (by omega)], hseg z (Or.inr hz)⟩,
        hwc, ?_, fun hKlt => hlast (by omega)⟩
      · intro z p hm
        obtain ⟨ha, hb, hc⟩ := hstp z p hm
        exact ⟨ha, by omega, hc⟩
    · refine ⟨[], sgA, ?_, fun z _ => ⟨rfl, rfl⟩, fun _ => rfl,
        fun hg2 => absurd hg2 hg⟩
      unfold upperPhase
      rw [if_neg hg]
      simp
  obtain ⟨tu, sgB, heqB, hOutB, hEmpB, hDetB⟩ := hB
  have hI : ∃ (ti : List SegEv) (sgF : Int → Mask),
      (if z0 ≠ z1 then
        interpPhase orc (projFlags proj).1 (projFlags proj).2 z0 z1 sl su
          ((x :: xs).zip (x :: xs).tail) ⟨sgB, tl ++ tu⟩
      else (⟨sgB, tl ++ tu⟩ : EngSt)) = ⟨sgF, (tl ++ tu) ++ ti⟩ ∧
      iouStopCount ti = 0 ∧
      (∀ z, (z ≤ z0 ∨ z1 ≤ z) → writeCount ti z = 0 ∧ sgF z = sgB z) := by
    by_cases hne : z0 ≠ z1
    · rw [if_pos hne]
      obtain ⟨ti, sgF, heq, hi, hfr⟩ := interpPhase_frame orc (projFlags proj).1
        (projFlags proj).2 z0 z1 sl su ((x :: xs).zip (x :: xs).tail)
        ⟨sgB, tl ++ tu⟩ (strictAsc_zip_lt _ hasc)
      refine ⟨ti, sgF, by simpa using heq, hi, fun z hz => ?_⟩
      have hcond : ∀ pr ∈ (x :: xs).zip (x :: xs).tail, ¬ (pr.1 < z ∧ z < pr.2) := by
        intro pr hpr
        have hp1 := hmin pr.1 (zip_tail_mem _ pr hpr).1
        have hp2 := hmax pr.2 (zip_tail_mem _ pr hpr).2
        omega
      obtain ⟨hw, hc, hs⟩ := hfr z hcond
      exact ⟨hw, hs⟩
    · rw [if_neg hne]
      exact ⟨[], sgB, by simp, rfl, fun z _ => ⟨rfl, rfl⟩⟩
  obtain ⟨ti, sgF, heqI, hiI, hpresI⟩ := hI
  refine ⟨tl, tu, ti, sgF, ?_, hiI, hEmpA, hEmpB, ?_, ?_⟩
  · rw [hmain, heqA, heqB, heqI]
  · intro hg
    obtain ⟨K, rest, hhead, hK, hw, hbound, hwc, hstp, hlast⟩ := hDetA hg
    refine ⟨K, rest, hhead, hK, hw, ?_, hstp, hlast, ?_⟩
    · intro z p hm
      obtain ⟨ha, hb, hp, hd⟩ := hwc z p hm
      refine ⟨ha, hb, ?_, hd⟩
      have e1 := (hpresI (z + 1) (Or.inl (by omega))).2
      have e2 := (hOutB (z + 1) (by omega)).2
      rw [hp, ← e2, ← e1]
    · intro z hz
      obtain ⟨hwtl, hsgA⟩ := hbound z hz
      have h2 := hOutB z (by omega)
      have h3 := hpresI z (Or.inl (by omega))
      constructor
      · rw [writeCount_append, writeCount_append, hwtl, h2.1, h3.1]
      · rw [h3.2, h2.2, hsgA]
  · intro hg
    obtain ⟨K, rest, hhead, hK, hw, hbound, hwc, hstp, hlast⟩ := hDetB hg
    have hsz : sgA z1 = seg0 z1 := (hOutA z1 (by omega)).2
    rw [hsz] at hhead
    refine ⟨K, rest, hhead, hK, hw, ?_, hstp, hlast, ?_⟩
    · intro z p hm
      obtain ⟨ha, hb, hp, hd⟩ := hwc z p hm
      refine ⟨ha, hb, ?_, hd⟩
      have e1 := (hpresI (z - 1) (Or.inr (by omega))).2
      rw [hp, ← e1]
    · intro z hz
      obtain ⟨hwtu, hsgB⟩ := hbound z hz
      have h1 := hOutA z (by omega)
      have h3 := hpresI z (Or.inr (by omega))
      constructor
      · rw [writeCount_append, writeCount_append, h1.1, hwtu, h3.1]
      · rw [h3.2, hsgB, h1.2]

/-- Witness for C2 at a concrete volume with one annotated slice, where both
outward walks run. -/
theorem c2_outward_extension_iou_stopping_witness :
    ∃ (tl tu ti : List SegEv) (sg : Int → Mask),
      segmentVolume (fun p _ _ _ => p) 3 [1] false false 0 "mask" (fun _ => [1]) =
        Except.ok ⟨sg, tl ++ tu ++ ti⟩ ∧
      iouStopCount ti = 0 := by
  obtain ⟨tl, tu, ti, sg, heq, hi, -, -, -, -⟩ :=
    c2_outward_extension_iou_stopping (fun p _ _ _ => p) 3 false false 0 "mask"
      (fun _ => [1]) 1 1 1 [] (Or.inl rfl) (by decide) rfl rfl
  exact ⟨tl, tu, ti, sg, heq, hi⟩

end MicroSam

namespace MicroSam

/-- C8: refuted. In `segment_range` the `_update_progress()` call sits after the
stopping-criterion check, so the last slice written by a walk that runs to its
bound is never counted: on a two-slice volume with slice 0 annotated,
`iou_threshold = 0` and `stop_upper` false, the upper walk segments and writes
slice 1 (one write event) but issues zero progress increments, contradicting
one increment per slice segmented. -/
theorem c8_progress_undercount :
    ∃ (sg : Int → Mask) (tr : List SegEv),
      segmentVolume (fun p _ _ _ => p) 2 [0] false false 0 "mask" (fun _ => [1]) =
        Except.ok ⟨sg, tr⟩ ∧
      writeTotal tr = 1 ∧ progCount tr = 0 := by
  have hrepr : segmentVolume (fun p _ _ _ => p) 2 [0] false false 0 "mask"
      (fun _ => [1]) =
      Except.ok (segRangeLoop (fun p _ _ _ => p) true true (some 0) 1 1
        (fun a b => decide (b < a)) 2 1 ⟨fun _ => [1], []⟩) := rfl
  obtain ⟨K, tw, sg, heq, hK, hhead, hw, hu, hwt, hpc, hseg, hwc, hstp, hlast⟩ :=
    segRangeLoop_fwd_thr (fun p _ _ _ => p) true true 0 1 2
      (fun a b => decide (b < a)) (fun z => decide_eq_decide.mpr (by omega))
      1 1 ⟨fun _ => [1], []⟩ 2 (by omega) (by omega) (by omega)
  have hK1 : K = 1 := by
    by_contra hne
    obtain ⟨p, hp⟩ := hlast (by omega)
    obtain ⟨-, -, hiou⟩ := hstp _ _ hp
    exact absurd hiou (not_lt.mpr (computeIou_nonneg p p))
  subst hK1
  refine ⟨sg, tw, ?_, hwt, ?_⟩
  · rw [hrepr, heq]
    rfl
  · rw [hpc]
    rfl

end MicroSam
